import Mathlib

/-!
# Pwned-password lookup (package `pwned`)

A shallow embedding of `src/pwned/pwned.go` and of the library behaviour it relies on
(`crypto/sha1`, `encoding/csv` with `Comma = ':'`, `strconv.ParseUint(_, 10, 64)`,
`net/http.Get`), followed by theorems about `SearchPrefix` and `IsPwned`.

Conventions of the embedding:

* A Go `string` is a `List Char`.  The model covers strings that are valid UTF-8 text;
  every delimiter the code inspects (`:`, the double quote, `\n`, `\r`, the decimal
  digits) is ASCII, so splitting by character and splitting by byte agree.
* `uint64` and `uint32` values are `Nat`, reduced modulo `2^64` / `2^32` where the Go
  arithmetic can wrap.
* A nil slice and an empty slice are both `[]`; a nil `error` is `none`.
* The network is the only effect.  A function that talks to the network is a `Prog`:
  a tree whose nodes are the HTTP requests it issues and whose leaves are its results.
* A Go function call ends in one of three ways, see `Go`.
-/

namespace Pwned

/-! ## Data model -/

/-- The length of the prefix which will be compared (`comparisonLength`). -/
def comparisonLength : Nat := 5

/-- The base URL of the service (`urlBase`). -/
def urlBase : List Char := "https://api.pwnedpasswords.com".toList

/-- The struct `Result` of the source. -/
structure Result where
  /-- The password has been seen at least once. -/
  Pwned : Bool
  /-- Number of times the password was recorded (`uint64`). -/
  Frequency : Nat
  /-- The (full) sha1 hash of the password. -/
  Sha1Hash : List Char
deriving DecidableEq, Repr

/-- The sentinel errors of `encoding/csv` that a reader with default settings can report:
`ErrBareQuote`, `ErrQuote` and `ErrFieldCount`. -/
inductive CsvError where
  | bareQuote
  | quote
  | fieldCount
deriving DecidableEq, Repr

/-- The two errors of `strconv.ParseUint` for a fixed valid base and bit size:
`invalid` is `strconv.ErrSyntax`, `outOfRange` is `strconv.ErrRange`. -/
inductive NumError where
  | invalid
  | outOfRange
deriving DecidableEq, Repr

/-- The error returned by `http.Get` when the request itself fails (no response). -/
structure TransportError where
  msg : List Char
deriving DecidableEq, Repr

/-- The error values that the package can return.
* `noPassword`: `fmt.Errorf("no password provided")`
* `insufficientLength`: `fmt.Errorf("hash has insufficient length to perform check")`
* `transport e`: the error of `http.Get`, returned unchanged
* `invalidData e`: `fmt.Errorf("invalid data from websites: %w", e)`, wrapping a reader error
* `number e`: the `*strconv.NumError` of `ParseUint`, returned unchanged
* `hashWrite`: an error of `h.Write` (the hash never reports one) -/
inductive Error where
  | noPassword
  | insufficientLength
  | transport (e : TransportError)
  | invalidData (e : CsvError)
  | number (e : NumError)
  | hashWrite
deriving DecidableEq, Repr

/-- The part of an `*http.Response` that exists in the source: the status code (never
read by the source) and the body, taken as completely delivered. -/
structure Response where
  StatusCode : Nat
  Body : List Char
deriving DecidableEq, Repr

/-- The two values `resp, err` of `http.Get`. -/
abbrev HttpResult := Except TransportError Response

/-- How a Go call ends: it returns a value, it panics (index out of range), or the
model ran out of loop budget (`hang`; the budgets below are chosen so that this does
not happen, see `SearchPrefix_ne_hang` and `IsPwned_ne_hang`). -/
inductive Go (α : Type) where
  | ret (a : α)
  | panic
  | hang
deriving DecidableEq, Repr

/-- A computation that may issue HTTP GET requests: `done a` finishes with `a` without
any further request, `httpGet url k` issues `GET url` and continues with `k` on what
came back. -/
inductive Prog (α : Type) where
  | done (a : α)
  | httpGet (url : List Char) (k : HttpResult → Prog α)

/-- Sequencing of computations. -/
def Prog.bind {α β : Type} : Prog α → (α → Prog β) → Prog β
  | .done a, f => f a
  | .httpGet url k, f => .httpGet url (fun r => Prog.bind (k r) f)

/-- Run a computation against a network `net`, which answers each URL. -/
def Prog.run {α : Type} (net : List Char → HttpResult) : Prog α → α
  | .done a => a
  | .httpGet url k => Prog.run net (k (net url))

/-- The URLs requested, in order, when running against `net`. -/
def Prog.requests {α : Type} (net : List Char → HttpResult) : Prog α → List (List Char)
  | .done _ => []
  | .httpGet url k => url :: Prog.requests net (k (net url))

/-! ## `crypto/sha1` -/

/-- Rotate a 32-bit word left by `n` bits (`bits.RotateLeft32`). -/
def rotl32 (n x : Nat) : Nat := ((x <<< n) % 4294967296) ||| (x >>> (32 - n))

/-- The UTF-8 encoding of a character, one `Nat` below 256 per byte. -/
def utf8Bytes (c : Char) : List Nat :=
  let v := c.toNat
  if v < 128 then [v]
  else if v < 2048 then [192 + v / 64, 128 + v % 64]
  else if v < 65536 then [224 + v / 4096, 128 + (v / 64) % 64, 128 + v % 64]
  else [240 + v / 262144, 128 + (v / 4096) % 64, 128 + (v / 64) % 64, 128 + v % 64]

/-- The bytes of a Go string: `[]byte(s)`. -/
def stringBytes (s : List Char) : List Nat := s.flatMap utf8Bytes

/-- The `k` low-order bytes of `n`, most significant first. -/
def beBytes : Nat → Nat → List Nat
  | 0, _ => []
  | k + 1, n => (n / 256 ^ k) % 256 :: beBytes k n

/-- SHA-1 padding: a `0x80` byte, zeros up to 56 modulo 64, the bit length in 8 bytes. -/
def sha1Pad (msg : List Nat) : List Nat :=
  let l := msg.length
  msg ++ 128 :: List.replicate ((119 - l % 64) % 64) 0 ++ beBytes 8 (8 * l)

/-- A big-endian 32-bit word from four bytes. -/
def beWord : List Nat → Nat
  | [a, b, c, d] => ((a * 256 + b) * 256 + c) * 256 + d
  | _ => 0

/-- The first `k` big-endian words of a byte string. -/
def beWords : Nat → List Nat → List Nat
  | 0, _ => []
  | k + 1, bs => beWord (bs.take 4) :: beWords k (bs.drop 4)

/-- Extend the message schedule by `k` words; the schedule is kept newest first, so
`w[i-3]`, `w[i-8]`, `w[i-14]`, `w[i-16]` are at positions 2, 7, 13, 15. -/
def sha1Extend : Nat → List Nat → List Nat
  | 0, w => w
  | k + 1, w =>
    sha1Extend k
      (rotl32 1 (((w.getD 2 0) ^^^ (w.getD 7 0)) ^^^ ((w.getD 13 0) ^^^ (w.getD 15 0))) :: w)

/-- The five chaining words of SHA-1. -/
structure Sha1State where
  a : Nat
  b : Nat
  c : Nat
  d : Nat
  e : Nat
deriving DecidableEq, Repr

/-- The round function and round constant of round `i`. -/
def sha1FK (i b c d : Nat) : Nat × Nat :=
  if i < 20 then ((b &&& c) ||| ((4294967295 - b) &&& d), 0x5A827999)
  else if i < 40 then (b ^^^ c ^^^ d, 0x6ED9EBA1)
  else if i < 60 then ((b &&& c) ||| (b &&& d) ||| (c &&& d), 0x8F1BBCDC)
  else (b ^^^ c ^^^ d, 0xCA62C1D6)

/-- One round of the compression function with schedule word `w`. -/
def sha1Round (s : Sha1State) (i w : Nat) : Sha1State :=
  let p := sha1FK i s.b s.c s.d
  ⟨(rotl32 5 s.a + p.1 + s.e + p.2 + w) % 4294967296, s.a, rotl32 30 s.b, s.c, s.d⟩

/-- The rounds for the schedule words `ws`, starting at round `i`. -/
def sha1Rounds : Sha1State → Nat → List Nat → Sha1State
  | s, _, [] => s
  | s, i, w :: ws => sha1Rounds (sha1Round s i w) (i + 1) ws

/-- The compression of one 64-byte block. -/
def sha1Block (h : Sha1State) (bs : List Nat) : Sha1State :=
  let w := (sha1Extend 64 (beWords 16 bs).reverse).reverse
  let s := sha1Rounds h 0 w
  ⟨(h.a + s.a) % 4294967296, (h.b + s.b) % 4294967296, (h.c + s.c) % 4294967296,
   (h.d + s.d) % 4294967296, (h.e + s.e) % 4294967296⟩

/-- Compress `k` consecutive blocks. -/
def sha1Blocks : Nat → Sha1State → List Nat → Sha1State
  | 0, h, _ => h
  | k + 1, h, bs => sha1Blocks k (sha1Block h (bs.take 64)) (bs.drop 64)

/-- The initial chaining value. -/
def sha1Init : Sha1State := ⟨0x67452301, 0xEFCDAB89, 0x98BADCFE, 0x10325476, 0xC3D2E1F0⟩

/-- The 20-byte SHA-1 digest of a byte string: `h.Write(msg); h.Sum(nil)`. -/
def sha1Sum (msg : List Nat) : List Nat :=
  let p := sha1Pad msg
  let s := sha1Blocks (p.length / 64) sha1Init p
  beBytes 4 s.a ++ beBytes 4 s.b ++ beBytes 4 s.c ++ beBytes 4 s.d ++ beBytes 4 s.e

/-- One lower-case hexadecimal digit. -/
def hexDigit (n : Nat) : Char := if n < 10 then Char.ofNat (48 + n) else Char.ofNat (87 + n)

/-- The verb `%x` of `fmt.Sprintf` on a byte slice: two lower-case digits per byte. -/
def hexString (bs : List Nat) : List Char :=
  bs.flatMap fun b => [hexDigit (b / 16), hexDigit (b % 16)]

/-- The function `strings.ToUpper` (on the ASCII letters, the only ones it meets here). -/
def toUpper (s : List Char) : List Char := s.map Char.toUpper

/-- The function `sha1Hash` of the source: the upper-case hexadecimal SHA-1 digest of
the password, and the error of `h.Write`, which is always nil. -/
def sha1Hash (password : List Char) : List Char × Option Error :=
  (toUpper (hexString (sha1Sum (stringBytes password))), none)

/-! ## `strconv.ParseUint(s, 10, 64)` -/

/-- The largest `uint64`. -/
def maxUint64 : Nat := 18446744073709551615

/-- The smallest number such that `cutoff * 10 > maxUint64`. -/
def cutoff : Nat := maxUint64 / 10 + 1

/-- The helper `lower` of `strconv`: `c | ('x' - 'X')` on the byte value. -/
def lower (c : Nat) : Nat := c ||| 32

/-- The digit loop of `ParseUint` for base 10 and bit size 64, with `n` the value
accumulated so far.  A byte that is not a digit below the base ends it with
`ErrSyntax`, an overflow ends it with `maxVal` and `ErrRange`. -/
def parseUintLoop : List Char → Nat → Nat × Option NumError
  | [], n => (n, none)
  | c :: cs, n =>
    let b := c.toNat
    if 48 ≤ b ∧ b ≤ 57 then
      let d := b - 48
      if d ≥ 10 then (0, some .invalid)
      else if n ≥ cutoff then (maxUint64, some .outOfRange)
      else
        let n10 := (n * 10) % 2 ^ 64
        let n1 := (n10 + d) % 2 ^ 64
        if n1 < n10 ∨ n1 > maxUint64 then (maxUint64, some .outOfRange)
        else parseUintLoop cs n1
    else if 97 ≤ lower b ∧ lower b ≤ 122 then
      let d := lower b - 97 + 10
      if d ≥ 10 then (0, some .invalid)
      else if n ≥ cutoff then (maxUint64, some .outOfRange)
      else
        let n10 := (n * 10) % 2 ^ 64
        let n1 := (n10 + d) % 2 ^ 64
        if n1 < n10 ∨ n1 > maxUint64 then (maxUint64, some .outOfRange)
        else parseUintLoop cs n1
    else (0, some .invalid)

/-- The call `strconv.ParseUint(s, 10, 64)`: value and error. -/
def ParseUint (s : List Char) : Nat × Option NumError :=
  if s = [] then (0, some .invalid) else parseUintLoop s 0

/-! ## `encoding/csv` reader with `Comma = ':'` and default settings

Defaults: `Comment = 0`, `FieldsPerRecord = 0`, `LazyQuotes = false`,
`TrimLeadingSpace = false`. -/

/-- The field delimiter set by the source: `reader.Comma = ':'`. -/
def comma : Char := ':'

/-- The double quote character. -/
def dquote : Char := Char.ofNat 34

/-- The helper `lengthNL`: 1 if the slice ends in a newline, else 0. -/
def lengthNL (b : List Char) : Nat := if b.getLast? = some '\n' then 1 else 0

/-- The position of the first occurrence of `c` (`bytes.IndexByte`, `bytes.IndexRune`
for an ASCII character); `none` stands for `-1`. -/
def indexOfChar (c : Char) : List Char → Option Nat
  | [] => none
  | x :: xs => if x = c then some 0 else (indexOfChar c xs).map (· + 1)

/-- The call `ReadSlice('\n')` on the unread input: the bytes up to and including the
first newline, whether the end of input came first (`err == io.EOF`), and what is left. -/
def readSlice : List Char → List Char × Bool × List Char
  | [] => ([], true, [])
  | c :: cs =>
    if c = '\n' then ([c], false, cs)
    else
      match readSlice cs with
      | (l, e, r) => (c :: l, e, r)

/-- The method `readLine`: the next line, whether it reports `io.EOF`, and the rest of
the input.  A final line without newline is returned without error and loses a trailing
`\r`; a line ending in `\r\n` is returned ending in `\n`. -/
def readLine (input : List Char) : List Char × Bool × List Char :=
  match readSlice input with
  | (line, eof, rest) =>
    let p : List Char × Bool :=
      if line.length > 0 ∧ eof = true then
        (if line.getLast? = some '\r' then line.dropLast else line, false)
      else (line, eof)
    let line1 := p.1
    let n := line1.length
    let line2 :=
      if n ≥ 2 ∧ line1.get? (n - 2) = some '\r' ∧ line1.get? (n - 1) = some '\n' then
        line1.take (n - 2) ++ ['\n']
      else line1
    (line2, p.2, rest)

/-- The first loop of `readRecord`: read lines, skipping empty ones, until a non-empty
line or the end of input.  The budget bounds the number of lines read. -/
def nextLine : Nat → List Char → Option (List Char × Bool × List Char)
  | 0, _ => none
  | k + 1, input =>
    match readLine input with
    | (line, eof, rest) =>
      if eof = false ∧ line.length = lengthNL line then nextLine k rest
      else some (line, eof, rest)

/-- The loop `parseField` of `readRecord`, on the unparsed part `line` of the current
line and the unread input `rest`.  `fields` are the fields completed so far, `cur` the
part of a quoted field collected so far, and `quoted` tells whether the loop is inside a
quoted field (the inner loop of the source).  The result is the record, the error, and
the unread input; `none` when the budget of iterations is used up. -/
def parseFields : Nat → Bool → List Char → List Char → List (List Char) → List Char →
    Option (List (List Char) × Option CsvError × List Char)
  | 0, _, _, _, _, _ => none
  | k + 1, false, line, rest, fields, _ =>
    if line.head? = some dquote then
      -- Quoted string field
      parseFields k true (line.drop 1) rest fields []
    else
      -- Non-quoted string field
      let i := indexOfChar comma line
      let field :=
        match i with
        | some j => line.take j
        | none => line.take (line.length - lengthNL line)
      -- Check to make sure a quote does not appear in field.
      if (indexOfChar dquote field).isSome then some (fields, some .bareQuote, rest)
      else
        match i with
        | some j => parseFields k false (line.drop (j + 1)) rest (fields ++ [field]) []
        | none => some (fields ++ [field], none, rest)
  | k + 1, true, line, rest, fields, cur =>
    match indexOfChar dquote line with
    | some i =>
      -- Hit next quote.
      let cur1 := cur ++ line.take i
      let line1 := line.drop (i + 1)
      if line1.head? = some dquote then
        -- two quotes in a row: append a quote
        parseFields k true (line1.drop 1) rest fields (cur1 ++ [dquote])
      else if line1.head? = some comma then
        -- quote and comma: end of field
        parseFields k false (line1.drop 1) rest (fields ++ [cur1]) []
      else if lengthNL line1 = line1.length then
        -- quote and newline: end of line
        some (fields ++ [cur1], none, rest)
      else
        -- invalid non-escaped quote
        some (fields, some .quote, rest)
    | none =>
      if line.length > 0 then
        -- Hit end of line (copy all data so far); an end of input here is not an error yet
        match readLine rest with
        | (line1, _, rest1) => parseFields k true line1 rest1 fields (cur ++ line)
      else
        -- Abrupt end of file
        some (fields, some .quote, rest)

/-- The state of a `csv.Reader`: the unread input and `FieldsPerRecord`. -/
structure Reader where
  input : List Char
  FieldsPerRecord : Nat
deriving DecidableEq, Repr

/-- The errors of `Read`: `io.EOF` or a `*csv.ParseError` with one of the sentinels. -/
inductive ReadError where
  | eof
  | parse (e : CsvError)
deriving DecidableEq, Repr

/-- The method `Read` (that is `readRecord`): the record, the error and the reader
afterwards.  With `FieldsPerRecord = 0` the first record sets the number of fields that
every later record must have. -/
def Read (r : Reader) : Option (List (List Char) × Option ReadError × Reader) :=
  match nextLine (r.input.length + 1) r.input with
  | none => none
  | some (line, eof, rest) =>
    if eof = true then some ([], some .eof, ⟨rest, r.FieldsPerRecord⟩)
    else
      match parseFields (line.length + rest.length + 1) false line rest [] [] with
      | none => none
      | some (dst, err, rest1) =>
        if r.FieldsPerRecord > 0 then
          if dst.length ≠ r.FieldsPerRecord ∧ err = none then
            some (dst, some (.parse .fieldCount), ⟨rest1, r.FieldsPerRecord⟩)
          else some (dst, err.map .parse, ⟨rest1, r.FieldsPerRecord⟩)
        else some (dst, err.map .parse, ⟨rest1, dst.length⟩)

/-! ## The package -/

/-- What `SearchPrefix` returns: the results and the error. -/
abbrev SearchReturn := Go (List Result × Option Error)

/-- The loop of `SearchPrefix` over the records of the reader, with `results` the
results collected so far.  Indexing `components[1]` panics when the record has fewer
than two fields. -/
def searchLoop : Nat → List Char → Reader → List Result → SearchReturn
  | 0, _, _, _ => .hang
  | k + 1, pfx, reader, results =>
    match Read reader with
    | none => .hang
    | some (_, some .eof, _) => .ret (results, none)
    | some (_, some (.parse e), _) => .ret (results, some (.invalidData e))
    | some (components, none, reader1) =>
      match components[1]? with
      | none => .panic
      | some c1 =>
        match ParseUint c1 with
        | (_, some e) => .ret ([], some (.number e))
        | (frequency, none) =>
          match components[0]? with
          | none => .panic
          | some c0 =>
            searchLoop k pfx reader1 (results ++ [⟨true, frequency, pfx ++ c0⟩])

/-- The URL requested for a prefix: `fmt.Sprintf("%s/range/%s", urlBase, prefix)`. -/
def rangeURL (pfx : List Char) : List Char := urlBase ++ "/range/".toList ++ pfx

/-- What `SearchPrefix` does with the outcome of `http.Get`. -/
def searchResponse (pfx : List Char) : HttpResult → SearchReturn
  | .error e => .ret ([], some (.transport e))
  | .ok resp => searchLoop (resp.Body.length + 1) pfx ⟨resp.Body, 0⟩ []

/-- The function `SearchPrefix` of the source. -/
def SearchPrefix (pfx : List Char) : Prog SearchReturn :=
  .httpGet (rangeURL pfx) fun r => .done (searchResponse pfx r)

/-- What `IsPwned` returns: the result (nil is `none`) and the error. -/
abbrev PwnedReturn := Go (Option Result × Option Error)

/-- The loop `for i := range results` of `IsPwned`: the first result whose hash is
`hash`. -/
def firstMatch (hash : List Char) : List Result → Option Result
  | [] => none
  | r :: rs => if r.Sha1Hash = hash then some r else firstMatch hash rs

/-- The part of `IsPwned` after the call of `SearchPrefix`: the results are checked
before the error. -/
def checkResults (hash : List Char) : SearchReturn → PwnedReturn
  | .panic => .panic
  | .hang => .hang
  | .ret (results, err) =>
    match firstMatch hash results with
    | some r => .ret (some r, none)
    | none =>
      match err with
      | some e => .ret (none, some e)
      | none => .ret (some ⟨false, 0, hash⟩, none)

/-- The function `IsPwned` of the source. -/
def IsPwned (password : List Char) : Prog PwnedReturn :=
  if password = [] then .done (.ret (none, some .noPassword))
  else
    match sha1Hash password with
    | (_, some err) => .done (.ret (none, some err))
    | (hash, none) =>
      if hash.length < comparisonLength then .done (.ret (none, some .insufficientLength))
      else
        (SearchPrefix (hash.take comparisonLength)).bind fun out =>
          .done (checkResults hash out)

/-! ## The response bodies the service sends -/

/-- A line `suffix:count` of a response body, ended by `\n` or by `\r\n`. -/
structure Line where
  suffix : List Char
  count : List Char
  crlf : Bool
deriving DecidableEq, Repr

/-- The end of line: `\r\n` or `\n`. -/
def eol (crlf : Bool) : List Char := if crlf then ['\r', '\n'] else ['\n']

/-- The text of a line. -/
def Line.text (l : Line) : List Char := l.suffix ++ comma :: l.count ++ eol l.crlf

/-- The body made of the given lines. -/
def bodyOf (ls : List Line) : List Char := ls.flatMap Line.text

/-- A hexadecimal digit, in either case. -/
def isHexChar (c : Char) : Bool :=
  c.isDigit || (decide ('a' ≤ c) && decide (c ≤ 'f')) || (decide ('A' ≤ c) && decide (c ≤ 'F'))

/-- The number written by a string of decimal digits. -/
def decimalValue (ds : List Char) : Nat := ds.foldl (fun n c => 10 * n + (c.toNat - 48)) 0

/-- An unsigned decimal integer that fits in 64 bits: one or more decimal digits with a
value below `2^64`. -/
def ValidCount (f : List Char) : Prop :=
  f ≠ [] ∧ (∀ c ∈ f, c.isDigit = true) ∧ decimalValue f < 2 ^ 64

instance (f : List Char) : Decidable (ValidCount f) := by
  unfold ValidCount; infer_instance

/-- A well-formed line: a hexadecimal fragment and a valid count. -/
def Line.WellFormed (l : Line) : Prop :=
  (∀ c ∈ l.suffix, isHexChar c = true) ∧ ValidCount l.count

instance (l : Line) : Decidable l.WellFormed := by
  unfold Line.WellFormed; infer_instance

/-- A character with no special meaning for the reader: not the delimiter, not a quote,
not a line break. -/
def plainChar (c : Char) : Bool := c != comma && c != dquote && c != '\n' && c != '\r'

/-- The fields joined by the delimiter. -/
def joinFields : List (List Char) → List Char
  | [] => []
  | [f] => f
  | f :: g :: gs => f ++ comma :: joinFields (g :: gs)

/-- All fields consist of plain characters. -/
def PlainFields (fs : List (List Char)) : Prop := ∀ f ∈ fs, ∀ c ∈ f, plainChar c = true

/-- An upper-case hexadecimal digit: `0`-`9` or `A`-`F`. -/
def isUpperHexChar (c : Char) : Bool := c.isDigit || (decide ('A' ≤ c) && decide (c ≤ 'F'))

/-- A line that the reader rejects after the lines `ls`.  Either it has a wrong number of
fields: there is a first line, and the line is non-empty, free of quotes, and splits
into one field or into three or more.  Or it has a bare quote: after zero or more plain
fields comes a field that starts with a plain character and goes on with a quote. -/
def RejectedLine (ls : List Line) (bad : List Char) : Prop :=
  (ls ≠ [] ∧ ∃ fs crlf, PlainFields fs ∧ joinFields fs ≠ [] ∧ fs.length ≠ 2 ∧
    bad = joinFields fs ++ eol crlf) ∨
  (∃ fs v crlf, PlainFields fs ∧ fs ≠ [] ∧ fs.getLast? ≠ some [] ∧
    (∀ c ∈ v, c ≠ '\n' ∧ c ≠ '\r') ∧ bad = joinFields fs ++ dquote :: v ++ eol crlf)

/-! ## Basic facts -/

theorem beBytes_length (k n : Nat) : (beBytes k n).length = k := by
  induction k with
  | zero => rfl
  | succ k ih => simp [beBytes, ih]

theorem hexString_length (bs : List Nat) : (hexString bs).length = 2 * bs.length := by
  induction bs with
  | nil => rfl
  | cons b bs ih =>
    have h : hexString (b :: bs) = hexDigit (b / 16) :: hexDigit (b % 16) :: hexString bs := by
      simp [hexString]
    rw [h]; simp [ih]; omega

theorem sha1Sum_length (msg : List Nat) : (sha1Sum msg).length = 20 := by
  simp [sha1Sum, beBytes_length]

theorem sha1Hash_length (password : List Char) : (sha1Hash password).1.length = 40 := by
  simp [sha1Hash, toUpper, hexString_length, sha1Sum_length]

theorem sha1Hash_error (password : List Char) : (sha1Hash password).2 = none := rfl

theorem SearchPrefix_run (net : List Char → HttpResult) (pfx : List Char) :
    (SearchPrefix pfx).run net = searchResponse pfx (net (rangeURL pfx)) := rfl

theorem IsPwned_run (net : List Char → HttpResult) (password : List Char)
    (h : password ≠ []) :
    (IsPwned password).run net =
      checkResults (sha1Hash password).1
        ((SearchPrefix ((sha1Hash password).1.take comparisonLength)).run net) := by
  have hl := sha1Hash_length password
  have hlt : ¬ (sha1Hash password).1.length < comparisonLength := by
    rw [hl]; decide
  unfold IsPwned
  rw [if_neg h]
  have hs : sha1Hash password = ((sha1Hash password).1, none) := rfl
  rw [hs]
  simp only [if_neg hlt]
  rfl

theorem firstMatch_none (hash : List Char) (rs : List Result)
    (h : ∀ r ∈ rs, r.Sha1Hash ≠ hash) : firstMatch hash rs = none := by
  induction rs with
  | nil => rfl
  | cons r rs ih =>
    have h1 : r.Sha1Hash ≠ hash := h r (List.mem_cons_self _ _)
    simp only [firstMatch, if_neg h1]
    exact ih (fun x hx => h x (List.mem_cons_of_mem _ hx))

theorem firstMatch_first (hash : List Char) (pre post : List Result) (r : Result)
    (hr : r.Sha1Hash = hash) (h : ∀ x ∈ pre, x.Sha1Hash ≠ hash) :
    firstMatch hash (pre ++ r :: post) = some r := by
  induction pre with
  | nil => simp [firstMatch, hr]
  | cons p pre ih =>
    have h1 : p.Sha1Hash ≠ hash := h p (List.mem_cons_self _ _)
    simp only [List.cons_append, firstMatch, if_neg h1]
    exact ih (fun x hx => h x (List.mem_cons_of_mem _ hx))

/-! ## The reader on lines without quotes -/

theorem indexOfChar_none (c : Char) (l : List Char) (h : ∀ x ∈ l, x ≠ c) :
    indexOfChar c l = none := by
  induction l with
  | nil => rfl
  | cons x xs ih =>
    have hx : x ≠ c := h x (List.mem_cons_self _ _)
    simp only [indexOfChar, if_neg hx, ih (fun y hy => h y (List.mem_cons_of_mem _ hy))]
    rfl

theorem indexOfChar_append (c : Char) (s t : List Char) (h : ∀ x ∈ s, x ≠ c) :
    indexOfChar c (s ++ c :: t) = some s.length := by
  induction s with
  | nil => simp [indexOfChar]
  | cons x xs ih =>
    have hx : x ≠ c := h x (List.mem_cons_self _ _)
    show indexOfChar c (x :: (xs ++ c :: t)) = _
    simp only [indexOfChar, if_neg hx, ih (fun y hy => h y (List.mem_cons_of_mem _ hy))]
    rfl

theorem readSlice_line (s rest : List Char) (h : ∀ x ∈ s, x ≠ '\n') :
    readSlice (s ++ '\n' :: rest) = (s ++ ['\n'], false, rest) := by
  induction s with
  | nil => simp [readSlice]
  | cons x xs ih =>
    have hx : x ≠ '\n' := h x (List.mem_cons_self _ _)
    show readSlice (x :: (xs ++ '\n' :: rest)) = _
    simp only [readSlice, if_neg hx, ih (fun y hy => h y (List.mem_cons_of_mem _ hy))]
    rfl

theorem getElem_append_at {α : Type} (t u : List α) (a : α) :
    (t ++ a :: u)[t.length]? = some a := by
  induction t with
  | nil => simp
  | cons x xs ih => simpa using ih

theorem getElem_append_at_succ {α : Type} (t u : List α) (a b : α) :
    (t ++ a :: b :: u)[t.length + 1]? = some b := by
  induction t with
  | nil => simp
  | cons x xs ih => simpa using ih

theorem readLine_lf (s rest : List Char) (h : ∀ x ∈ s, x ≠ '\n' ∧ x ≠ '\r') :
    readLine (s ++ '\n' :: rest) = (s ++ ['\n'], false, rest) := by
  unfold readLine
  rw [readSlice_line s rest (fun x hx => (h x hx).1)]
  rcases List.eq_nil_or_concat s with rfl | ⟨t, a, rfl⟩
  · simp
  · have ha : a ≠ '\r' := (h a (by simp)).2
    have e1 := getElem_append_at t ['\n'] a
    simp [List.get?_eq_getElem?, e1, ha]

theorem readLine_crlf (s rest : List Char) (h : ∀ x ∈ s, x ≠ '\n' ∧ x ≠ '\r') :
    readLine (s ++ '\r' :: '\n' :: rest) = (s ++ ['\n'], false, rest) := by
  unfold readLine
  have h2 : ∀ x ∈ s ++ ['\r'], x ≠ '\n' := by
    intro x hx
    rcases List.mem_append.1 hx with hx | hx
    · exact (h x hx).1
    · simp at hx; subst hx; decide
  have := readSlice_line (s ++ ['\r']) rest h2
  simp only [List.append_assoc, List.singleton_append] at this
  rw [this]
  have e1 := getElem_append_at s ['\n'] '\r'
  have e2 := getElem_append_at_succ s [] '\r' '\n'
  simp [List.get?_eq_getElem?, e1, e2]

theorem readLine_eol (s rest : List Char) (b : Bool) (h : ∀ x ∈ s, x ≠ '\n' ∧ x ≠ '\r') :
    readLine (s ++ eol b ++ rest) = (s ++ ['\n'], false, rest) := by
  cases b
  · simpa [eol] using readLine_lf s rest h
  · simpa [eol] using readLine_crlf s rest h

theorem plainChar_ne (c : Char) (h : plainChar c = true) :
    c ≠ comma ∧ c ≠ dquote ∧ c ≠ '\n' ∧ c ≠ '\r' := by
  simpa [plainChar, and_assoc] using h

theorem lengthNL_snoc (s : List Char) : lengthNL (s ++ ['\n']) = 1 := by
  simp [lengthNL]

theorem head?_ne_dquote (f t : List Char) (c : Char) (hf : ∀ x ∈ f, plainChar x = true)
    (hc : c ≠ dquote) : (f ++ c :: t).head? ≠ some dquote := by
  cases f with
  | nil => simpa using hc
  | cons x xs =>
    have := (plainChar_ne x (hf x (List.mem_cons_self _ _))).2.1
    simpa using this

theorem joinFields_mem (fs : List (List Char)) (h : PlainFields fs) :
    ∀ x ∈ joinFields fs, x ≠ '\n' ∧ x ≠ '\r' ∧ x ≠ dquote := by
  induction fs with
  | nil => intro x hx; simp [joinFields] at hx
  | cons f gs ih =>
    cases gs with
    | nil =>
      intro x hx
      have hp := plainChar_ne x (h f (List.mem_cons_self _ _) x (by simpa [joinFields] using hx))
      exact ⟨hp.2.2.1, hp.2.2.2, hp.2.1⟩
    | cons g gs =>
      intro x hx
      simp only [joinFields, List.mem_append, List.mem_cons] at hx
      rcases hx with hx | hx | hx
      · have hp := plainChar_ne x (h f (List.mem_cons_self _ _) x hx)
        exact ⟨hp.2.2.1, hp.2.2.2, hp.2.1⟩
      · subst hx; decide
      · exact ih (fun f2 hf2 => h f2 (List.mem_cons_of_mem _ hf2)) x hx

theorem joinFields_length (fs : List (List Char)) : fs.length ≤ (joinFields fs).length + 1 := by
  induction fs with
  | nil => simp
  | cons f gs ih =>
    cases gs with
    | nil => simp
    | cons g gs =>
      simp only [joinFields, List.length_append, List.length_cons] at ih ⊢
      omega

theorem parseFields_plain (fs : List (List Char)) (hne : fs ≠ []) (hp : PlainFields fs)
    (k : Nat) (hk : fs.length ≤ k) (rest cur : List Char) (acc : List (List Char)) :
    parseFields k false (joinFields fs ++ ['\n']) rest acc cur = some (acc ++ fs, none, rest) := by
  induction fs generalizing k acc cur with
  | nil => exact absurd rfl hne
  | cons f gs ih =>
    have hf : ∀ x ∈ f, plainChar x = true := hp f (List.mem_cons_self _ _)
    have hfq : ∀ x ∈ f, x ≠ dquote := fun x hx => (plainChar_ne x (hf x hx)).2.1
    have hfc : ∀ x ∈ f, x ≠ comma := fun x hx => (plainChar_ne x (hf x hx)).1
    obtain ⟨k, rfl⟩ : ∃ j, k = j + 1 := ⟨k - 1, by simp at hk; omega⟩
    cases gs with
    | nil =>
      have h1 : (f ++ ['\n']).head? ≠ some dquote := head?_ne_dquote f [] '\n' hf (by decide)
      have h2 : indexOfChar comma (f ++ ['\n']) = none := by
        apply indexOfChar_none
        intro x hx
        rcases List.mem_append.1 hx with hx | hx
        · exact hfc x hx
        · simp at hx; subst hx; decide
      have h3 : indexOfChar dquote f = none := indexOfChar_none _ _ hfq
      simp only [joinFields, parseFields, if_neg h1, h2, lengthNL_snoc]
      simp [h3]
    | cons g gs =>
      have h1 : (f ++ comma :: (joinFields (g :: gs) ++ ['\n'])).head? ≠ some dquote :=
        head?_ne_dquote f _ comma hf (by decide)
      have h2 : indexOfChar comma (f ++ comma :: (joinFields (g :: gs) ++ ['\n']))
          = some f.length := indexOfChar_append _ _ _ hfc
      have h3 : indexOfChar dquote f = none := indexOfChar_none _ _ hfq
      have e : joinFields (f :: g :: gs) ++ ['\n']
          = f ++ comma :: (joinFields (g :: gs) ++ ['\n']) := by
        simp [joinFields]
      rw [e]
      simp only [parseFields, if_neg h1, h2]
      simp only [List.take_left', List.drop_left', h3, Option.isSome_none, Bool.false_eq_true,
        if_false]
      have hd : List.drop (f.length + 1) (f ++ comma :: (joinFields (g :: gs) ++ ['\n']))
          = joinFields (g :: gs) ++ ['\n'] := by
        rw [List.drop_append_eq_append_drop]
        simp
      rw [hd, ih (by simp) (fun f2 hf2 => hp f2 (List.mem_cons_of_mem _ hf2)) k
        (by simp at hk ⊢; omega)]
      simp

theorem nextLine_line (s rest : List Char) (b : Bool) (k : Nat) (hne : s ≠ [])
    (h : ∀ x ∈ s, x ≠ '\n' ∧ x ≠ '\r') :
    nextLine (k + 1) (s ++ eol b ++ rest) = some (s ++ ['\n'], false, rest) := by
  have hl : ¬ ((s ++ ['\n']).length = lengthNL (s ++ ['\n'])) := by
    rw [lengthNL_snoc]
    cases s with
    | nil => exact absurd rfl hne
    | cons x xs => simp
  simp only [nextLine, readLine_eol s rest b h]
  rw [if_neg (fun hc => hl hc.2)]

/-- The reader on a line of plain fields. -/
theorem Read_plain (fs : List (List Char)) (hp : PlainFields fs) (hne : joinFields fs ≠ [])
    (b : Bool) (rest : List Char) (fpr : Nat) :
    Read ⟨joinFields fs ++ eol b ++ rest, fpr⟩ =
      some (fs,
        if 0 < fpr ∧ fs.length ≠ fpr then some (.parse .fieldCount) else none,
        ⟨rest, if 0 < fpr then fpr else fs.length⟩) := by
  have hfs : fs ≠ [] := by
    rintro rfl; exact hne rfl
  have hm := joinFields_mem fs hp
  have hlen := joinFields_length fs
  unfold Read
  simp only []
  rw [nextLine_line (joinFields fs) rest b _ hne (fun x hx => ⟨(hm x hx).1, (hm x hx).2.1⟩)]
  simp only [Bool.false_eq_true, if_false]
  rw [parseFields_plain fs hfs hp _ (by simp; omega) rest [] []]
  by_cases h0 : 0 < fpr
  · by_cases h1 : fs.length = fpr
    · simp [h0, h1]
    · simp [h0, h1]
  · simp [h0]

theorem decimalValue_foldl_le (ds : List Char) (n : Nat) :
    n ≤ ds.foldl (fun n c => 10 * n + (c.toNat - 48)) n := by
  induction ds generalizing n with
  | nil => simp
  | cons c cs ih =>
    simp only [List.foldl_cons]
    exact le_trans (by omega) (ih _)

theorem isDigit_toNat (c : Char) (h : c.isDigit = true) : 48 ≤ c.toNat ∧ c.toNat ≤ 57 := by
  simp only [Char.isDigit, Bool.and_eq_true, decide_eq_true_eq] at h
  have h1 : (48 : UInt32) ≤ c.val := h.1
  have h2 : c.val ≤ (57 : UInt32) := h.2
  exact ⟨h1, h2⟩

theorem parseUintLoop_digits (ds : List Char) (n : Nat) (hd : ∀ c ∈ ds, c.isDigit = true)
    (hv : ds.foldl (fun n c => 10 * n + (c.toNat - 48)) n < 2 ^ 64) :
    parseUintLoop ds n = (ds.foldl (fun n c => 10 * n + (c.toNat - 48)) n, none) := by
  induction ds generalizing n with
  | nil => rfl
  | cons c cs ih =>
    have hc := isDigit_toNat c (hd c (List.mem_cons_self _ _))
    simp only [List.foldl_cons] at hv ⊢
    have hle := decimalValue_foldl_le cs (10 * n + (c.toNat - 48))
    have hlt : 10 * n + (c.toNat - 48) < 2 ^ 64 := lt_of_le_of_lt hle hv
    have h64 : (2 : Nat) ^ 64 = 18446744073709551616 := by norm_num
    rw [h64] at hlt
    have e1 : (n * 10) % 2 ^ 64 = n * 10 := by
      rw [h64]; exact Nat.mod_eq_of_lt (by omega)
    have e2 : (n * 10 + (c.toNat - 48)) % 2 ^ 64 = 10 * n + (c.toNat - 48) := by
      rw [h64, Nat.mod_eq_of_lt (by omega)]; omega
    have hcut : ¬ n ≥ cutoff := by
      simp only [cutoff, maxUint64]; omega
    have hd10 : ¬ c.toNat - 48 ≥ 10 := by omega
    have hov : ¬ (10 * n + (c.toNat - 48) < n * 10 ∨ 10 * n + (c.toNat - 48) > maxUint64) := by
      simp only [maxUint64]; omega
    simp only [parseUintLoop, hc.1, hc.2, and_self, if_true, hd10, if_false, hcut, e1, e2, hov]
    exact ih _ (fun x hx => hd x (List.mem_cons_of_mem _ hx)) hv

theorem ParseUint_valid (f : List Char) (h : ValidCount f) :
    ParseUint f = (decimalValue f, none) := by
  unfold ParseUint
  rw [if_neg h.1]
  exact parseUintLoop_digits f 0 h.2.1 h.2.2

theorem isHexChar_plain (c : Char) (h : isHexChar c = true) : plainChar c = true := by
  by_contra hp
  have hc : c = comma ∨ c = dquote ∨ c = '\n' ∨ c = '\r' := by
    simp only [plainChar, Bool.and_eq_true, bne_iff_ne, ne_eq, not_and, Bool.not_eq_true] at hp
    by_contra hn
    simp only [not_or] at hn
    exact absurd (hp ⟨⟨hn.1, hn.2.1⟩, hn.2.2.1⟩) (by simpa using hn.2.2.2)
  rcases hc with rfl | rfl | rfl | rfl <;> revert h <;> decide

theorem isDigit_plain (c : Char) (h : c.isDigit = true) : plainChar c = true := by
  apply isHexChar_plain
  simp [isHexChar, h]

theorem Line.text_eq (l : Line) : l.text = joinFields [l.suffix, l.count] ++ eol l.crlf := by
  simp [Line.text, joinFields]

theorem plainFields_pair (s f : List Char) (hs : ∀ c ∈ s, plainChar c = true)
    (hf : ∀ c ∈ f, plainChar c = true) : PlainFields [s, f] := by
  intro g hg c hc
  simp only [List.mem_cons, List.mem_singleton, List.not_mem_nil, or_false] at hg
  rcases hg with rfl | rfl
  · exact hs c hc
  · exact hf c hc

theorem Line.plain (l : Line) (h : l.WellFormed) : PlainFields [l.suffix, l.count] :=
  plainFields_pair _ _ (fun c hc => isHexChar_plain c (h.1 c hc))
    (fun c hc => isDigit_plain c (h.2.2.1 c hc))

theorem searchLoop_eof (k : Nat) (pfx : List Char) (fpr : Nat) (acc : List Result) :
    searchLoop (k + 1) pfx ⟨[], fpr⟩ acc = .ret (acc, none) := by
  simp [searchLoop, Read, nextLine, readLine, readSlice]

theorem searchLoop_line (pfx : List Char) (l : Line) (hw : l.WellFormed) (k : Nat)
    (rest : List Char) (fpr : Nat) (hf : fpr = 0 ∨ fpr = 2) (acc : List Result) :
    searchLoop (k + 1) pfx ⟨l.text ++ rest, fpr⟩ acc =
      searchLoop k pfx ⟨rest, 2⟩ (acc ++ [⟨true, decimalValue l.count, pfx ++ l.suffix⟩]) := by
  have hr := Read_plain [l.suffix, l.count] (Line.plain l hw) (by simp [joinFields]) l.crlf
    rest fpr
  rw [← Line.text_eq] at hr
  have he : (if 0 < fpr ∧ [l.suffix, l.count].length ≠ fpr then some (ReadError.parse .fieldCount)
      else none) = none := by
    rcases hf with rfl | rfl <;> simp
  have hq : (if 0 < fpr then fpr else [l.suffix, l.count].length) = 2 := by
    rcases hf with rfl | rfl <;> simp
  rw [he, hq] at hr
  simp only [searchLoop, hr]
  simp only [List.getElem?_cons_succ, List.getElem?_cons_zero]
  rw [ParseUint_valid l.count hw.2]

theorem bodyOf_cons (l : Line) (ls : List Line) : bodyOf (l :: ls) = l.text ++ bodyOf ls := by
  simp [bodyOf]

theorem searchLoop_lines (pfx : List Char) (ls : List Line) (hw : ∀ l ∈ ls, l.WellFormed)
    (k : Nat) (rest : List Char) (fpr : Nat) (hf : fpr = 0 ∨ fpr = 2) (acc : List Result) :
    searchLoop (ls.length + k) pfx ⟨bodyOf ls ++ rest, fpr⟩ acc =
      searchLoop k pfx ⟨rest, if ls = [] then fpr else 2⟩
        (acc ++ ls.map fun l => ⟨true, decimalValue l.count, pfx ++ l.suffix⟩) := by
  induction ls generalizing fpr acc with
  | nil => simp [bodyOf]
  | cons l ls ih =>
    have e : (l :: ls).length + k = (ls.length + k) + 1 := by simp; omega
    rw [e, bodyOf_cons, List.append_assoc,
      searchLoop_line pfx l (hw l (List.mem_cons_self _ _)) _ _ fpr hf acc,
      ih (fun x hx => hw x (List.mem_cons_of_mem _ hx)) 2 (Or.inr rfl)]
    simp

theorem Line.text_length (l : Line) : 1 ≤ l.text.length := by
  simp [Line.text]; omega

theorem bodyOf_length (ls : List Line) : ls.length ≤ (bodyOf ls).length := by
  induction ls with
  | nil => simp
  | cons l ls ih =>
    rw [bodyOf_cons, List.length_append, List.length_cons]
    have := Line.text_length l
    omega

/-- The loop of `SearchPrefix` on a body that starts with well-formed lines: the lines
become results and the loop goes on with the rest. -/
theorem searchResponse_lines (pfx : List Char) (status : Nat) (ls : List Line)
    (hw : ∀ l ∈ ls, l.WellFormed) (rest : List Char) :
    ∃ k, searchResponse pfx (.ok ⟨status, bodyOf ls ++ rest⟩) =
      searchLoop (k + 1) pfx ⟨rest, if ls = [] then 0 else 2⟩
        (ls.map fun l => ⟨true, decimalValue l.count, pfx ++ l.suffix⟩) := by
  have hl := bodyOf_length ls
  refine ⟨(bodyOf ls ++ rest).length - ls.length, ?_⟩
  have e : (bodyOf ls ++ rest).length + 1 = ls.length + ((bodyOf ls ++ rest).length - ls.length + 1) := by
    simp only [List.length_append]; omega
  simp only [searchResponse]
  rw [e, searchLoop_lines pfx ls hw _ rest 0 (Or.inl rfl) []]
  simp

theorem searchLoop_fieldCount (pfx : List Char) (fs : List (List Char)) (hp : PlainFields fs)
    (hne : joinFields fs ≠ []) (hlen : fs.length ≠ 2) (b : Bool) (k : Nat) (rest : List Char)
    (acc : List Result) :
    searchLoop (k + 1) pfx ⟨joinFields fs ++ eol b ++ rest, 2⟩ acc =
      .ret (acc, some (.invalidData .fieldCount)) := by
  have hr := Read_plain fs hp hne b rest 2
  simp only [searchLoop, hr]
  simp [hlen]

/-- Every result that `SearchPrefix` collects has `Pwned = true`. -/
theorem searchLoop_pwned (k : Nat) (pfx : List Char) (r : Reader) (acc out : List Result)
    (err : Option Error) (hacc : ∀ x ∈ acc, x.Pwned = true)
    (h : searchLoop k pfx r acc = .ret (out, err)) : ∀ x ∈ out, x.Pwned = true := by
  induction k generalizing r acc with
  | zero => simp [searchLoop] at h
  | succ k ih =>
    rw [searchLoop] at h
    split at h
    · cases h
    · cases h; exact hacc
    · cases h; exact hacc
    · split at h
      · cases h
      · split at h
        · cases h; simp
        · split at h
          · cases h
          · refine ih _ _ ?_ h
            intro x hx
            rcases List.mem_append.1 hx with hx | hx
            · exact hacc x hx
            · simp at hx; subst hx; rfl

/-- The errors of the loop of `SearchPrefix` are wrapped reader errors or number errors. -/
theorem searchLoop_error (k : Nat) (pfx : List Char) (r : Reader) (acc out : List Result)
    (e : Error) (h : searchLoop k pfx r acc = .ret (out, some e)) :
    (∃ c, e = .invalidData c) ∨ (∃ n, e = .number n) := by
  induction k generalizing r acc with
  | zero => simp [searchLoop] at h
  | succ k ih =>
    rw [searchLoop] at h
    split at h
    · cases h
    · cases h
    · cases h; exact Or.inl ⟨_, rfl⟩
    · split at h
      · cases h
      · split at h
        · cases h; exact Or.inr ⟨_, rfl⟩
        · split at h
          · cases h
          · exact ih _ _ h

theorem searchResponse_pwned (pfx : List Char) (r : HttpResult) (out : List Result)
    (err : Option Error) (h : searchResponse pfx r = .ret (out, err)) :
    ∀ x ∈ out, x.Pwned = true := by
  cases r with
  | error e => simp only [searchResponse] at h; cases h; simp
  | ok resp => exact searchLoop_pwned _ _ _ [] out err (by simp) h

theorem searchResponse_error (pfx : List Char) (r : HttpResult) (out : List Result)
    (e : Error) (h : searchResponse pfx r = .ret (out, some e)) : e ≠ .noPassword := by
  cases r with
  | error t => simp only [searchResponse] at h; cases h; simp
  | ok resp =>
    rcases searchLoop_error _ _ _ [] out e h with ⟨c, rfl⟩ | ⟨n, rfl⟩ <;> simp

/-! ## The loop budgets suffice -/

theorem readSlice_length (input : List Char) :
    (readSlice input).1.length + (readSlice input).2.2.length = input.length := by
  induction input with
  | nil => rfl
  | cons c cs ih =>
    rcases hr : readSlice cs with ⟨l, e, r⟩
    rw [hr] at ih
    simp only at ih
    by_cases hc : c = '\n'
    · simp [readSlice, hc]; omega
    · simp only [readSlice, if_neg hc, hr, List.length_cons]
      omega

theorem readSlice_nonempty (input : List Char) (h : input ≠ []) :
    (readSlice input).1 ≠ [] := by
  cases input with
  | nil => exact absurd rfl h
  | cons c cs =>
    by_cases hc : c = '\n'
    · simp [readSlice, hc]
    · simp [readSlice, hc]

theorem readSlice_eof_nil : readSlice [] = ([], true, []) := rfl

theorem readLine_rest (input : List Char) : (readLine input).2.2 = (readSlice input).2.2 := by
  simp [readLine]

theorem readLine_line_length (input : List Char) :
    (readLine input).1.length ≤ (readSlice input).1.length := by
  rcases hr : readSlice input with ⟨l, e, r⟩
  simp only [readLine, hr]
  split_ifs <;>
    simp only [List.length_append, List.length_take, List.length_singleton,
      List.length_dropLast] at * <;> omega

theorem readLine_eof (input : List Char) (h : (readLine input).2.1 = true) : input = [] := by
  by_contra hne
  have := readSlice_nonempty input hne
  have hl : (readSlice input).1.length > 0 := List.length_pos.2 this
  simp only [readLine] at h
  by_cases he : (readSlice input).2.1 = true
  · simp [hl, he] at h
  · simp [he] at h

theorem readLine_length (input : List Char) :
    (readLine input).1.length + (readLine input).2.2.length ≤ input.length := by
  have h1 := readLine_line_length input
  have h2 := readSlice_length input
  rw [readLine_rest]
  omega

theorem readLine_rest_lt (input : List Char) (h : input ≠ []) :
    (readLine input).2.2.length < input.length := by
  have h1 := List.length_pos.2 (readSlice_nonempty input h)
  have h2 := readSlice_length input
  rw [readLine_rest]
  omega

theorem nextLine_some (k : Nat) (input : List Char) (hk : input.length < k) :
    ∃ line eof rest, nextLine k input = some (line, eof, rest) ∧
      line.length + rest.length ≤ input.length ∧
      (eof = false → rest.length < input.length) := by
  induction k generalizing input with
  | zero => omega
  | succ k ih =>
    rw [nextLine]
    rcases hr : readLine input with ⟨line, eof, rest⟩
    have h1 := readLine_length input
    have h2 := readLine_eof input
    rw [hr] at h1 h2
    simp only at h1 h2
    have h3 : eof = false → rest.length < input.length := by
      intro he
      have hne : input ≠ [] := by
        rintro rfl
        rw [show readLine [] = ([], true, []) from rfl] at hr
        simp only [Prod.mk.injEq] at hr
        rw [← hr.2.1] at he
        cases he
      have := readLine_rest_lt input hne
      rw [hr] at this
      exact this
    simp only []
    split
    · rename_i hc
      have hlt := h3 hc.1
      obtain ⟨l2, e2, r2, a1, a2, a3⟩ := ih rest (by omega)
      exact ⟨l2, e2, r2, a1, by omega, fun he => by have := a3 he; omega⟩
    · exact ⟨line, eof, rest, rfl, h1, h3⟩

theorem indexOfChar_some_ne_nil (c : Char) (l : List Char) (i : Nat)
    (h : indexOfChar c l = some i) : l ≠ [] := by
  rintro rfl
  simp [indexOfChar] at h

theorem length_drop_succ_lt (l : List Char) (i : Nat) (h : l ≠ []) :
    (l.drop (i + 1)).length < l.length := by
  have := List.length_pos.2 h
  simp only [List.length_drop]
  omega

theorem parseFields_some (k : Nat) (q : Bool) (line rest : List Char)
    (fields : List (List Char)) (cur : List Char) (hk : line.length + rest.length < k) :
    ∃ dst err rest1, parseFields k q line rest fields cur = some (dst, err, rest1) ∧
      rest1.length ≤ rest.length := by
  induction k generalizing q line rest fields cur with
  | zero => omega
  | succ k ih =>
    cases q with
    | false =>
      rw [parseFields]
      split
      · rename_i hq
        have hne : line ≠ [] := by
          rintro rfl; simp at hq
        have hlt := length_drop_succ_lt line 0 hne
        exact ih true (line.drop 1) rest fields [] (by simp only [zero_add] at hlt; omega)
      · simp only []
        split
        · exact ⟨_, _, _, rfl, le_refl _⟩
        · rcases hi : indexOfChar comma line with _ | j
          · exact ⟨_, _, _, rfl, le_refl _⟩
          · have hne := indexOfChar_some_ne_nil _ _ _ hi
            have hlt := length_drop_succ_lt line j hne
            exact ih false (line.drop (j + 1)) rest _ [] (by omega)
    | true =>
      rw [parseFields]
      rcases hi : indexOfChar dquote line with _ | i
      · simp only []
        split
        · rename_i hpos
          rcases hr : readLine rest with ⟨line1, e1, rest1⟩
          have h1 := readLine_length rest
          rw [hr] at h1
          simp only at h1
          obtain ⟨d, e, r, a1, a2⟩ := ih true line1 rest1 fields (cur ++ line) (by omega)
          exact ⟨d, e, r, a1, by omega⟩
        · exact ⟨_, _, _, rfl, le_refl _⟩
      · have hne := indexOfChar_some_ne_nil _ _ _ hi
        have hlt := length_drop_succ_lt line i hne
        have hd : ((line.drop (i + 1)).drop 1).length ≤ (line.drop (i + 1)).length := by
          simp only [List.length_drop]; omega
        simp only []
        split
        · exact ih true _ rest fields _ (by omega)
        · split
          · exact ih false _ rest _ [] (by omega)
          · split
            · exact ⟨_, _, _, rfl, le_refl _⟩
            · exact ⟨_, _, _, rfl, le_refl _⟩

/-- The method `Read` always returns, and a call that does not report the end of input
consumes input. -/
theorem Read_some (r : Reader) :
    ∃ rec err r1, Read r = some (rec, err, r1) ∧
      (err ≠ some .eof → r1.input.length < r.input.length) := by
  obtain ⟨line, eof, rest, h1, h2, h3⟩ := nextLine_some (r.input.length + 1) r.input (by omega)
  unfold Read
  rw [h1]
  simp only []
  cases eof with
  | true => exact ⟨_, _, _, rfl, fun h => absurd rfl h⟩
  | false =>
    have hlt := h3 rfl
    obtain ⟨dst, err, rest1, a1, a2⟩ :=
      parseFields_some (line.length + rest.length + 1) false line rest [] [] (by omega)
    simp only [Bool.false_eq_true, if_false, a1]
    split_ifs <;> exact ⟨_, _, _, rfl, fun _ => by simp only; omega⟩

/-- The loop of `SearchPrefix` ends within its budget. -/
theorem searchLoop_ne_hang (k : Nat) (pfx : List Char) (r : Reader) (acc : List Result)
    (hk : r.input.length < k) : searchLoop k pfx r acc ≠ .hang := by
  induction k generalizing r acc with
  | zero => omega
  | succ k ih =>
    obtain ⟨rec, err, r1, h1, h2⟩ := Read_some r
    rw [searchLoop, h1]
    rcases err with _ | e
    · have hlt := h2 (by simp)
      simp only []
      split
      · simp
      · split
        · simp
        · split
          · simp
          · exact ih _ _ (by omega)
    · cases e <;> simp

/-- The function `SearchPrefix` always ends: it returns or it panics. -/
theorem SearchPrefix_ne_hang (net : List Char → HttpResult) (pfx : List Char) :
    (SearchPrefix pfx).run net ≠ .hang := by
  rw [SearchPrefix_run]
  cases net (rangeURL pfx) with
  | error e => simp [searchResponse]
  | ok resp => exact searchLoop_ne_hang _ _ _ _ (by simp)

/-- The function `IsPwned` always ends: it returns or it panics. -/
theorem IsPwned_ne_hang (net : List Char → HttpResult) (password : List Char) :
    (IsPwned password).run net ≠ .hang := by
  by_cases hp : password = []
  · subst hp
    simp [IsPwned, Prog.run]
  · rw [IsPwned_run net password hp]
    have := SearchPrefix_ne_hang net ((sha1Hash password).1.take comparisonLength)
    rcases hs : (SearchPrefix ((sha1Hash password).1.take comparisonLength)).run net
      with ⟨out, err⟩ | _ | _
    · simp only [checkResults]
      split
      · simp
      · split <;> simp
    · simp [checkResults]
    · exact absurd hs this

/-! ## The digest is forty upper-case hexadecimal digits -/

theorem hexDigit_upper : ∀ n, n < 16 → isUpperHexChar (hexDigit n).toUpper = true := by
  decide

theorem beBytes_lt (k n : Nat) : ∀ b ∈ beBytes k n, b < 256 := by
  induction k with
  | zero => intro b hb; simp [beBytes] at hb
  | succ k ih =>
    intro b hb
    simp only [beBytes, List.mem_cons] at hb
    rcases hb with rfl | hb
    · exact Nat.mod_lt _ (by norm_num)
    · exact ih b hb

theorem sha1Sum_lt (msg : List Nat) : ∀ b ∈ sha1Sum msg, b < 256 := by
  intro b hb
  simp only [sha1Sum, List.mem_append] at hb
  rcases hb with (((hb | hb) | hb) | hb) | hb <;> exact beBytes_lt _ _ b hb

theorem hexString_mem (bs : List Nat) (c : Char) (h : c ∈ hexString bs) :
    ∃ b ∈ bs, c = hexDigit (b / 16) ∨ c = hexDigit (b % 16) := by
  simp only [hexString, List.mem_flatMap, List.mem_cons, List.mem_singleton,
    List.not_mem_nil, or_false] at h
  exact h

theorem sha1Hash_upperHex (password : List Char) :
    ∀ c ∈ (sha1Hash password).1, isUpperHexChar c = true := by
  intro c hc
  simp only [sha1Hash, toUpper, List.mem_map] at hc
  obtain ⟨x, hx, rfl⟩ := hc
  obtain ⟨b, hb, h | h⟩ := hexString_mem _ x hx
  · subst h
    exact hexDigit_upper _ (by have := sha1Sum_lt _ b hb; omega)
  · subst h
    exact hexDigit_upper _ (by omega)

theorem isUpperHexChar_isHexChar (c : Char) (h : isUpperHexChar c = true) :
    isHexChar c = true := by
  simp only [isUpperHexChar, Bool.or_eq_true] at h
  simp only [isHexChar, Bool.or_eq_true]
  rcases h with h | h
  · exact Or.inl (Or.inl h)
  · exact Or.inr h

/-! ## Errors and requests of the package -/

theorem searchResponse_error_kind (pfx : List Char) (r : HttpResult) (out : List Result)
    (e : Error) (h : searchResponse pfx r = .ret (out, some e)) :
    (∃ t, e = .transport t) ∨ (∃ c, e = .invalidData c) ∨ (∃ n, e = .number n) := by
  cases r with
  | error t => simp only [searchResponse] at h; cases h; exact Or.inl ⟨_, rfl⟩
  | ok resp => exact Or.inr (searchLoop_error _ _ _ [] out e h)

theorem IsPwned_eq (password : List Char) (h : password ≠ []) :
    IsPwned password =
      (SearchPrefix ((sha1Hash password).1.take comparisonLength)).bind fun out =>
        .done (checkResults (sha1Hash password).1 out) := by
  have hl := sha1Hash_length password
  have hlt : ¬ (sha1Hash password).1.length < comparisonLength := by
    rw [hl]; decide
  unfold IsPwned
  rw [if_neg h]
  have hs : sha1Hash password = ((sha1Hash password).1, none) := rfl
  rw [hs]
  simp only [if_neg hlt]

theorem IsPwned_requests (net : List Char → HttpResult) (password : List Char)
    (h : password ≠ []) :
    Prog.requests net (IsPwned password) =
      [rangeURL ((sha1Hash password).1.take comparisonLength)] := by
  rw [IsPwned_eq password h]
  rfl

/-! ## The reader on a line with a bare quote -/

theorem indexOfChar_isSome (c : Char) (l : List Char) (h : c ∈ l) :
    (indexOfChar c l).isSome = true := by
  induction l with
  | nil => simp at h
  | cons x xs ih =>
    by_cases hx : x = c
    · simp [indexOfChar, hx]
    · have hm : c ∈ xs := by
        rcases List.mem_cons.1 h with h1 | h1
        · exact absurd h1.symm hx
        · exact h1
      have := ih hm
      simp only [indexOfChar, if_neg hx]
      cases hi : indexOfChar c xs with
      | none => rw [hi] at this; simp at this
      | some j => rfl

theorem indexOfChar_ge (c : Char) (p t : List Char) (j : Nat) (hp : ∀ x ∈ p, x ≠ c)
    (h : indexOfChar c (p ++ t) = some j) : p.length ≤ j := by
  induction p generalizing j with
  | nil => simp
  | cons x xs ih =>
    have hx : x ≠ c := hp x (List.mem_cons_self _ _)
    have h2 : indexOfChar c (x :: (xs ++ t)) = some j := h
    simp only [indexOfChar, if_neg hx] at h2
    cases hi : indexOfChar c (xs ++ t) with
    | none => rw [hi] at h2; simp at h2
    | some i =>
      rw [hi] at h2
      simp only [Option.map_some', Option.some.injEq] at h2
      have := ih i (fun y hy => hp y (List.mem_cons_of_mem _ hy)) hi
      simp only [List.length_cons]
      omega

theorem mem_take_of_prefix (p t : List Char) (c : Char) (j : Nat) (hc : c ∈ p)
    (hj : p.length ≤ j) : c ∈ (p ++ t).take j := by
  obtain ⟨m, rfl⟩ : ∃ m, j = p.length + m := ⟨j - p.length, by omega⟩
  rw [List.take_append]
  exact List.mem_append_left _ hc

theorem parseFields_bareQuote (fs : List (List Char)) (hne : fs ≠ []) (hp : PlainFields fs)
    (hlast : fs.getLast? ≠ some []) (v : List Char)
    (k : Nat) (hk : fs.length ≤ k) (rest cur : List Char) (acc : List (List Char)) :
    ∃ dst, parseFields k false (joinFields fs ++ dquote :: v ++ ['\n']) rest acc cur
      = some (dst, some .bareQuote, rest) := by
  induction fs generalizing k acc cur with
  | nil => exact absurd rfl hne
  | cons f gs ih =>
    have hf : ∀ x ∈ f, plainChar x = true := hp f (List.mem_cons_self _ _)
    have hfq : ∀ x ∈ f, x ≠ dquote := fun x hx => (plainChar_ne x (hf x hx)).2.1
    have hfc : ∀ x ∈ f, x ≠ comma := fun x hx => (plainChar_ne x (hf x hx)).1
    obtain ⟨k, rfl⟩ : ∃ j, k = j + 1 := ⟨k - 1, by simp at hk; omega⟩
    cases gs with
    | nil =>
      have hfne : f ≠ [] := by
        rintro rfl; exact hlast rfl
      have e : joinFields [f] ++ dquote :: v ++ ['\n'] = (f ++ [dquote]) ++ (v ++ ['\n']) := by
        simp [joinFields]
      have h1 : ((f ++ [dquote]) ++ (v ++ ['\n'])).head? ≠ some dquote := by
        cases f with
        | nil => exact absurd rfl hfne
        | cons x xs =>
          have := hfq x (List.mem_cons_self _ _)
          simpa using this
      have hpc : ∀ x ∈ f ++ [dquote], x ≠ comma := by
        intro x hx
        rcases List.mem_append.1 hx with hx | hx
        · exact hfc x hx
        · simp at hx; subst hx; decide
      have hq : dquote ∈ f ++ [dquote] := by simp
      rw [e]
      rw [parseFields, if_neg h1]
      simp only []
      rcases hi : indexOfChar comma ((f ++ [dquote]) ++ (v ++ ['\n'])) with _ | j
      · have hl : lengthNL ((f ++ [dquote]) ++ (v ++ ['\n'])) = 1 := by
          rw [← List.append_assoc]; exact lengthNL_snoc _
        have hmem : dquote ∈ ((f ++ [dquote]) ++ (v ++ ['\n'])).take
            (((f ++ [dquote]) ++ (v ++ ['\n'])).length - 1) :=
          mem_take_of_prefix _ _ _ _ hq (by simp only [List.length_append, List.length_singleton]; omega)
        simp only [hl]
        rw [if_pos (indexOfChar_isSome _ _ hmem)]
        exact ⟨_, rfl⟩
      · have hj := indexOfChar_ge comma _ _ j hpc hi
        have hmem : dquote ∈ ((f ++ [dquote]) ++ (v ++ ['\n'])).take j :=
          mem_take_of_prefix _ _ _ _ hq hj
        simp only []
        rw [if_pos (indexOfChar_isSome _ _ hmem)]
        exact ⟨_, rfl⟩
    | cons g gs =>
      have e : joinFields (f :: g :: gs) ++ dquote :: v ++ ['\n']
          = f ++ comma :: (joinFields (g :: gs) ++ dquote :: v ++ ['\n']) := by
        simp [joinFields]
      have h1 : (f ++ comma :: (joinFields (g :: gs) ++ dquote :: v ++ ['\n'])).head?
          ≠ some dquote := head?_ne_dquote f _ comma hf (by decide)
      have h2 : indexOfChar comma (f ++ comma :: (joinFields (g :: gs) ++ dquote :: v ++ ['\n']))
          = some f.length := indexOfChar_append _ _ _ hfc
      have h3 : indexOfChar dquote f = none := indexOfChar_none _ _ hfq
      rw [e]
      simp only [parseFields, if_neg h1, h2]
      simp only [List.take_left', List.drop_left', h3, Option.isSome_none, Bool.false_eq_true,
        if_false]
      have hd : List.drop (f.length + 1)
          (f ++ comma :: (joinFields (g :: gs) ++ dquote :: v ++ ['\n']))
          = joinFields (g :: gs) ++ dquote :: v ++ ['\n'] := by
        rw [List.drop_append_eq_append_drop]
        simp
      rw [hd]
      exact ih (by simp) (fun f2 hf2 => hp f2 (List.mem_cons_of_mem _ hf2))
        (by simpa [List.getLast?_cons_cons] using hlast) k (by simp at hk ⊢; omega) _ _

theorem searchLoop_bareQuote (pfx : List Char) (fs : List (List Char)) (hne : fs ≠ [])
    (hp : PlainFields fs) (hlast : fs.getLast? ≠ some []) (v : List Char)
    (hv : ∀ c ∈ v, c ≠ '\n' ∧ c ≠ '\r') (b : Bool) (k : Nat) (rest : List Char) (fpr : Nat)
    (acc : List Result) :
    searchLoop (k + 1) pfx ⟨joinFields fs ++ dquote :: v ++ eol b ++ rest, fpr⟩ acc =
      .ret (acc, some (.invalidData .bareQuote)) := by
  have hm := joinFields_mem fs hp
  have hlen := joinFields_length fs
  have hs : ∀ x ∈ joinFields fs ++ dquote :: v, x ≠ '\n' ∧ x ≠ '\r' := by
    intro x hx
    rcases List.mem_append.1 hx with hx | hx
    · exact ⟨(hm x hx).1, (hm x hx).2.1⟩
    · rcases List.mem_cons.1 hx with rfl | hx
      · decide
      · exact hv x hx
  have hnl := nextLine_line (joinFields fs ++ dquote :: v) rest b
    ((joinFields fs ++ dquote :: v ++ eol b ++ rest).length) (by simp) hs
  obtain ⟨dst, hd⟩ := parseFields_bareQuote fs hne hp hlast v
    ((joinFields fs ++ dquote :: v ++ ['\n']).length + rest.length + 1)
    (by simp only [List.length_append, List.length_cons]; omega) rest [] []
  have hr : Read ⟨joinFields fs ++ dquote :: v ++ eol b ++ rest, fpr⟩ =
      some (dst, some (.parse .bareQuote), ⟨rest, if 0 < fpr then fpr else dst.length⟩) := by
    unfold Read
    simp only []
    rw [hnl]
    simp only [Bool.false_eq_true, if_false]
    rw [hd]
    by_cases h0 : 0 < fpr
    · simp [h0]
    · simp [h0]
  rw [searchLoop, hr]

/-! ## The claims -/

set_option maxRecDepth 100000

theorem sha1Hash_password :
    sha1Hash "password".toList = ("5BAA61E4C9B93F3F0682250B6CF8331B7EE68FD8".toList, none) := by
  decide

/-- C1, as the code has it.  The password is "password" and the first line of the body
completes its digest.  When the next line has a frequency that is not a number,
`SearchPrefix` gives up the results read so far and `IsPwned` returns the number error
with no result, where the claim expects `Pwned = true` with frequency 3730471.  When the
next line is instead rejected by the reader (here: one field only), the results are
kept and `IsPwned` does return the match. -/
theorem C1_match_lost_after_invalid_frequency :
    (IsPwned "password".toList).run
        (fun _ => .ok ⟨200, ("1E4C9B93F3F0682250B6CF8331B7EE68FD8:3730471\n" ++
          "0018A45C4D1DEF81644B54AB7F969B88D65:abc\n").toList⟩)
      = .ret (none, some (.number .invalid)) ∧
    (IsPwned "password".toList).run
        (fun _ => .ok ⟨200, ("1E4C9B93F3F0682250B6CF8331B7EE68FD8:3730471\n" ++
          "0018A45C4D1DEF81644B54AB7F969B88D65\n").toList⟩)
      = .ret (some ⟨true, 3730471, "5BAA61E4C9B93F3F0682250B6CF8331B7EE68FD8".toList⟩, none) := by
  decide

/-- C2.  For a non-empty password with digest `d`: whenever `SearchPrefix`, called on
the first five characters of `d`, returns records (with or without an error) among
which `r` is the first whose hash equals `d`, `IsPwned` returns no error and the result
with `Pwned = true`, the frequency of `r` and the hash `d`. -/
theorem C2_first_match_returned (net : List Char → HttpResult) (password : List Char)
    (records pre post : List Result) (r : Result) (err : Option Error)
    (hp : password ≠ [])
    (hs : (SearchPrefix ((sha1Hash password).1.take comparisonLength)).run net
      = .ret (records, err))
    (hrec : records = pre ++ r :: post)
    (hr : r.Sha1Hash = (sha1Hash password).1)
    (hpre : ∀ x ∈ pre, x.Sha1Hash ≠ (sha1Hash password).1) :
    (IsPwned password).run net
      = .ret (some ⟨true, r.Frequency, (sha1Hash password).1⟩, none) := by
  have hpw : r.Pwned = true := by
    rw [SearchPrefix_run] at hs
    exact searchResponse_pwned _ _ _ _ hs r (by simp [hrec])
  rw [IsPwned_run net password hp, hs]
  simp only [checkResults, hrec, firstMatch_first _ pre post r hr hpre]
  cases r with
  | mk p f h =>
    simp only at hpw hr
    rw [hpw, hr]

/-- C2 at the password "password": the lookup returns the record with suffix
1E4C9B93F3F0682250B6CF8331B7EE68FD8 and frequency 3730471. -/
theorem C2_first_match_returned_witness :
    "password".toList ≠ [] ∧
    (SearchPrefix ((sha1Hash "password".toList).1.take comparisonLength)).run
        (fun _ => .ok ⟨200, "1E4C9B93F3F0682250B6CF8331B7EE68FD8:3730471\n".toList⟩)
      = .ret ([⟨true, 3730471, "5BAA61E4C9B93F3F0682250B6CF8331B7EE68FD8".toList⟩], none) ∧
    (sha1Hash "password".toList).1 = "5BAA61E4C9B93F3F0682250B6CF8331B7EE68FD8".toList ∧
    (IsPwned "password".toList).run
        (fun _ => .ok ⟨200, "1E4C9B93F3F0682250B6CF8331B7EE68FD8:3730471\n".toList⟩)
      = .ret (some ⟨true, 3730471, "5BAA61E4C9B93F3F0682250B6CF8331B7EE68FD8".toList⟩, none) := by
  have hd : (sha1Hash "password".toList).1 = "5BAA61E4C9B93F3F0682250B6CF8331B7EE68FD8".toList := by
    rw [sha1Hash_password]
  have hs : (SearchPrefix ((sha1Hash "password".toList).1.take comparisonLength)).run
        (fun _ => .ok ⟨200, "1E4C9B93F3F0682250B6CF8331B7EE68FD8:3730471\n".toList⟩)
      = .ret ([⟨true, 3730471, "5BAA61E4C9B93F3F0682250B6CF8331B7EE68FD8".toList⟩], none) := by
    rw [hd]; decide
  have h := C2_first_match_returned
    (fun _ => .ok ⟨200, "1E4C9B93F3F0682250B6CF8331B7EE68FD8:3730471\n".toList⟩)
    "password".toList [⟨true, 3730471, "5BAA61E4C9B93F3F0682250B6CF8331B7EE68FD8".toList⟩] [] []
    ⟨true, 3730471, "5BAA61E4C9B93F3F0682250B6CF8331B7EE68FD8".toList⟩ none
    (by decide) hs rfl hd.symm (by simp)
  rw [hd] at h
  exact ⟨by decide, hs, hd, h⟩

/-- C3.  For a non-empty password with digest `d`: when `SearchPrefix`, called on the
first five characters of `d`, returns without error and none of its records has the
hash `d`, `IsPwned` returns no error and the result with `Pwned = false`, frequency 0
and the hash `d`. -/
theorem C3_no_match_clean (net : List Char → HttpResult) (password : List Char)
    (records : List Result)
    (hp : password ≠ [])
    (hs : (SearchPrefix ((sha1Hash password).1.take comparisonLength)).run net
      = .ret (records, none))
    (hno : ∀ x ∈ records, x.Sha1Hash ≠ (sha1Hash password).1) :
    (IsPwned password).run net = .ret (some ⟨false, 0, (sha1Hash password).1⟩, none) := by
  rw [IsPwned_run net password hp, hs]
  simp only [checkResults, firstMatch_none _ records hno]

/-- C3 at the password "password" and a body with one line for another hash. -/
theorem C3_no_match_clean_witness :
    "password".toList ≠ [] ∧
    (SearchPrefix ((sha1Hash "password".toList).1.take comparisonLength)).run
        (fun _ => .ok ⟨200, "0018A45C4D1DEF81644B54AB7F969B88D65:12\n".toList⟩)
      = .ret ([⟨true, 12, "5BAA60018A45C4D1DEF81644B54AB7F969B88D65".toList⟩], none) ∧
    (IsPwned "password".toList).run
        (fun _ => .ok ⟨200, "0018A45C4D1DEF81644B54AB7F969B88D65:12\n".toList⟩)
      = .ret (some ⟨false, 0, "5BAA61E4C9B93F3F0682250B6CF8331B7EE68FD8".toList⟩, none) := by
  have hd : (sha1Hash "password".toList).1 = "5BAA61E4C9B93F3F0682250B6CF8331B7EE68FD8".toList := by
    rw [sha1Hash_password]
  have hs : (SearchPrefix ((sha1Hash "password".toList).1.take comparisonLength)).run
        (fun _ => .ok ⟨200, "0018A45C4D1DEF81644B54AB7F969B88D65:12\n".toList⟩)
      = .ret ([⟨true, 12, "5BAA60018A45C4D1DEF81644B54AB7F969B88D65".toList⟩], none) := by
    rw [hd]; decide
  have h := C3_no_match_clean
    (fun _ => .ok ⟨200, "0018A45C4D1DEF81644B54AB7F969B88D65:12\n".toList⟩)
    "password".toList [⟨true, 12, "5BAA60018A45C4D1DEF81644B54AB7F969B88D65".toList⟩]
    (by decide) hs (by rw [hd]; decide)
  rw [hd] at h
  exact ⟨by decide, hs, h⟩

/-- C4.  For a non-empty password with digest `d`: when `SearchPrefix`, called on the
first five characters of `d`, returns the error `e` and none of the records it returned
has the hash `d`, `IsPwned` returns that same error `e` and no result. -/
theorem C4_error_propagates (net : List Char → HttpResult) (password : List Char)
    (records : List Result) (e : Error)
    (hp : password ≠ [])
    (hs : (SearchPrefix ((sha1Hash password).1.take comparisonLength)).run net
      = .ret (records, some e))
    (hno : ∀ x ∈ records, x.Sha1Hash ≠ (sha1Hash password).1) :
    (IsPwned password).run net = .ret (none, some e) := by
  rw [IsPwned_run net password hp, hs]
  simp only [checkResults, firstMatch_none _ records hno]

/-- C4 at the password "password" when the request fails. -/
theorem C4_error_propagates_witness :
    "password".toList ≠ [] ∧
    (SearchPrefix ((sha1Hash "password".toList).1.take comparisonLength)).run
        (fun _ => .error ⟨"connection refused".toList⟩)
      = .ret ([], some (.transport ⟨"connection refused".toList⟩)) ∧
    (IsPwned "password".toList).run (fun _ => .error ⟨"connection refused".toList⟩)
      = .ret (none, some (.transport ⟨"connection refused".toList⟩)) :=
  ⟨by decide, rfl,
    C4_error_propagates (fun _ => .error ⟨"connection refused".toList⟩) "password".toList []
      (.transport ⟨"connection refused".toList⟩) (by decide) rfl (by simp)⟩

/-- C5.  `IsPwned` on the empty password is the computation that finishes at once,
without any request, with no result and the error "no password provided"; and whatever
the network answers, `IsPwned` returns that error only for the empty password. -/
theorem C5_empty_password (net : List Char → HttpResult) (password : List Char) :
    IsPwned [] = .done (.ret (none, some .noPassword)) ∧
    Prog.requests net (IsPwned []) = [] ∧
    ((∃ res, (IsPwned password).run net = .ret (res, some .noPassword)) ↔ password = []) := by
  refine ⟨rfl, rfl, ⟨?_, ?_⟩⟩
  · rintro ⟨res, h⟩
    by_contra hp
    rw [IsPwned_run net password hp, SearchPrefix_run] at h
    rcases hsr : searchResponse ((sha1Hash password).1.take comparisonLength)
        (net (rangeURL ((sha1Hash password).1.take comparisonLength))) with ⟨out, err⟩ | _ | _
    · rw [hsr] at h
      simp only [checkResults] at h
      split at h
      · cases h
      · split at h
        · cases h
          exact searchResponse_error _ _ _ _ hsr rfl
        · cases h
    · rw [hsr] at h; simp [checkResults] at h
    · rw [hsr] at h; simp [checkResults] at h
  · rintro rfl
    exact ⟨none, rfl⟩

/-- C6, as the code has it: status 404 is not a success status, yet `SearchPrefix`
returns no error and the record parsed from the body. -/
theorem C6_status_404_parsed :
    ¬ (200 ≤ 404 ∧ 404 < 300) ∧
    (SearchPrefix "5BAA6".toList).run
        (fun _ => .ok ⟨404, "0018A45C4D1DEF81644B54AB7F969B88D65:12\n".toList⟩)
      = .ret ([⟨true, 12, "5BAA60018A45C4D1DEF81644B54AB7F969B88D65".toList⟩], none) := by
  decide

/-- C6, amended.  `SearchPrefix` does not look at the status code: for every prefix and
every response, whatever its status code, it returns what it returns for the response
with status 200 and the same body. -/
theorem C6_status_not_inspected (net : List Char → HttpResult) (pfx : List Char)
    (status : Nat) (body : List Char)
    (hget : net (rangeURL pfx) = .ok ⟨status, body⟩) :
    (SearchPrefix pfx).run net = (SearchPrefix pfx).run (fun _ => .ok ⟨200, body⟩) := by
  rw [SearchPrefix_run, SearchPrefix_run, hget]
  rfl

/-- C6, amended, at status 500 with an empty body: no error and no records, as for
status 200. -/
theorem C6_status_not_inspected_witness :
    (fun _ => .ok ⟨500, []⟩ : List Char → HttpResult) (rangeURL "5BAA6".toList) = .ok ⟨500, []⟩ ∧
    (SearchPrefix "5BAA6".toList).run (fun _ => .ok ⟨500, []⟩)
      = (SearchPrefix "5BAA6".toList).run (fun _ => .ok ⟨200, []⟩) ∧
    (SearchPrefix "5BAA6".toList).run (fun _ => .ok ⟨500, []⟩) = .ret ([], none) :=
  ⟨rfl, C6_status_not_inspected (fun _ => .ok ⟨500, []⟩) "5BAA6".toList 500 [] rfl, by decide⟩

/-- C7, as the code has it: a body whose only line has three fields makes
`SearchPrefix` succeed, with one record made of the first two fields. -/
theorem C7_three_fields_accepted :
    (SearchPrefix "5BAA6".toList).run
        (fun _ => .ok ⟨200, "0018A45C4D1DEF81644B54AB7F969B88D65:12:x\n".toList⟩)
      = .ret ([⟨true, 12, "5BAA60018A45C4D1DEF81644B54AB7F969B88D65".toList⟩], none) := by
  decide

/-- C7, amended.  For every prefix and every response body that starts with one or more
well-formed lines (two fields), a following non-empty line without quotes that splits
on `:` into one field or into three or more fields makes `SearchPrefix` return an error:
the reader's wrong-number-of-fields error, wrapped. -/
theorem C7_field_count_after_first_line (net : List Char → HttpResult) (pfx : List Char)
    (status : Nat) (ls : List Line) (fs : List (List Char)) (crlf : Bool) (rest : List Char)
    (hls : ls ≠ [])
    (hw : ∀ l ∈ ls, l.WellFormed)
    (hp : PlainFields fs)
    (hne : joinFields fs ≠ [])
    (hlen : fs.length ≠ 2)
    (hget : net (rangeURL pfx) = .ok ⟨status, bodyOf ls ++ (joinFields fs ++ eol crlf ++ rest)⟩) :
    ∃ records, (SearchPrefix pfx).run net = .ret (records, some (.invalidData .fieldCount)) := by
  obtain ⟨k, hk⟩ := searchResponse_lines pfx status ls hw (joinFields fs ++ eol crlf ++ rest)
  rw [SearchPrefix_run, hget, hk, if_neg hls,
    searchLoop_fieldCount pfx fs hp hne hlen crlf k rest]
  exact ⟨_, rfl⟩

/-- C7, amended, at a body with one well-formed line followed by a line with one
field. -/
theorem C7_field_count_after_first_line_witness :
    ([⟨"0018A45C4D1DEF81644B54AB7F969B88D65".toList, "12".toList, false⟩] : List Line) ≠ [] ∧
    (∀ l ∈ ([⟨"0018A45C4D1DEF81644B54AB7F969B88D65".toList, "12".toList, false⟩] : List Line),
      l.WellFormed) ∧
    PlainFields ["011053FD0102E94D6AE2F8B83D76FAF94F6".toList] ∧
    joinFields ["011053FD0102E94D6AE2F8B83D76FAF94F6".toList] ≠ [] ∧
    ["011053FD0102E94D6AE2F8B83D76FAF94F6".toList].length ≠ 2 ∧
    ∃ records, (SearchPrefix "5BAA6".toList).run
        (fun _ => .ok ⟨200, ("0018A45C4D1DEF81644B54AB7F969B88D65:12\n" ++
          "011053FD0102E94D6AE2F8B83D76FAF94F6\n").toList⟩)
      = .ret (records, some (.invalidData .fieldCount)) := by
  have hw : ∀ l ∈ ([⟨"0018A45C4D1DEF81644B54AB7F969B88D65".toList, "12".toList, false⟩] : List Line),
      l.WellFormed := by decide
  have hp : PlainFields ["011053FD0102E94D6AE2F8B83D76FAF94F6".toList] := by
    unfold PlainFields; decide
  exact ⟨by decide, hw, hp, by decide, by decide,
    C7_field_count_after_first_line
      (fun _ => .ok ⟨200, ("0018A45C4D1DEF81644B54AB7F969B88D65:12\n" ++
          "011053FD0102E94D6AE2F8B83D76FAF94F6\n").toList⟩)
      "5BAA6".toList 200 [⟨"0018A45C4D1DEF81644B54AB7F969B88D65".toList, "12".toList, false⟩]
      ["011053FD0102E94D6AE2F8B83D76FAF94F6".toList] false [] (by decide) hw hp (by decide)
      (by decide) rfl⟩

/-- C9.  For every prefix `p` and every response whose body consists of `n ≥ 0`
well-formed lines `s_i:f_i`, each ended by `\n` or `\r\n`, `SearchPrefix` returns no
error and exactly `n` records in the order of the lines, the `i`-th with frequency `f_i`
and hash `p ++ s_i`. -/
theorem C9_well_formed_body (net : List Char → HttpResult) (pfx : List Char) (status : Nat)
    (ls : List Line)
    (hw : ∀ l ∈ ls, l.WellFormed)
    (hget : net (rangeURL pfx) = .ok ⟨status, bodyOf ls⟩) :
    (SearchPrefix pfx).run net
      = .ret (ls.map (fun l => ⟨true, decimalValue l.count, pfx ++ l.suffix⟩), none) := by
  obtain ⟨k, hk⟩ := searchResponse_lines pfx status ls hw []
  rw [List.append_nil] at hk
  rw [SearchPrefix_run, hget, hk, searchLoop_eof]

/-- C9 at a body of two lines, the first ended by `\r\n`, the second by `\n`. -/
theorem C9_well_formed_body_witness :
    (∀ l ∈ ([⟨"0018A45C4D1DEF81644B54AB7F969B88D65".toList, "12".toList, true⟩,
        ⟨"1E4C9B93F3F0682250B6CF8331B7EE68FD8".toList, "3730471".toList, false⟩] : List Line),
      l.WellFormed) ∧
    (SearchPrefix "5BAA6".toList).run
        (fun _ => .ok ⟨200, ("0018A45C4D1DEF81644B54AB7F969B88D65:12\r\n" ++
          "1E4C9B93F3F0682250B6CF8331B7EE68FD8:3730471\n").toList⟩)
      = .ret ([⟨true, 12, "5BAA60018A45C4D1DEF81644B54AB7F969B88D65".toList⟩,
          ⟨true, 3730471, "5BAA61E4C9B93F3F0682250B6CF8331B7EE68FD8".toList⟩], none) := by
  have hw : ∀ l ∈ ([⟨"0018A45C4D1DEF81644B54AB7F969B88D65".toList, "12".toList, true⟩,
        ⟨"1E4C9B93F3F0682250B6CF8331B7EE68FD8".toList, "3730471".toList, false⟩] : List Line),
      l.WellFormed := by decide
  have h := C9_well_formed_body
      (fun _ => .ok ⟨200, ("0018A45C4D1DEF81644B54AB7F969B88D65:12\r\n" ++
          "1E4C9B93F3F0682250B6CF8331B7EE68FD8:3730471\n").toList⟩)
      "5BAA6".toList 200 [⟨"0018A45C4D1DEF81644B54AB7F969B88D65".toList, "12".toList, true⟩,
        ⟨"1E4C9B93F3F0682250B6CF8331B7EE68FD8".toList, "3730471".toList, false⟩] hw rfl
  exact ⟨hw, by rw [h]; decide⟩

/-- C10, as the code has it: for the prefix 5BAA6 and the body
"1E4C9B93F3F0682250B6CF8331B7EE68FD8:3\n" the hash of the one record returned is the
prefix followed by the suffix, which is not the suffix itself. -/
theorem C10_hash_is_not_suffix :
    (SearchPrefix "5BAA6".toList).run
        (fun _ => .ok ⟨200, "1E4C9B93F3F0682250B6CF8331B7EE68FD8:3\n".toList⟩)
      = .ret ([⟨true, 3, "5BAA61E4C9B93F3F0682250B6CF8331B7EE68FD8".toList⟩], none) ∧
    "5BAA61E4C9B93F3F0682250B6CF8331B7EE68FD8".toList
      ≠ "1E4C9B93F3F0682250B6CF8331B7EE68FD8".toList := by
  decide

/-- C10, amended.  For every prefix `p` and every single-line response body `s:f\n`, with
`s` a hexadecimal fragment and `f` an unsigned decimal integer that fits in 64 bits,
`SearchPrefix` returns no error and exactly one record, whose hash is `p ++ s` (the
prefix followed by the fragment) and whose frequency is `f`. -/
theorem C10_single_line (net : List Char → HttpResult) (pfx : List Char) (status : Nat)
    (s f : List Char)
    (hs : ∀ c ∈ s, isHexChar c = true)
    (hf : ValidCount f)
    (hget : net (rangeURL pfx) = .ok ⟨status, s ++ comma :: f ++ ['\n']⟩) :
    (SearchPrefix pfx).run net = .ret ([⟨true, decimalValue f, pfx ++ s⟩], none) := by
  obtain ⟨k, hk⟩ := searchResponse_lines pfx status [⟨s, f, false⟩]
    (by intro l hl; simp only [List.mem_singleton] at hl; subst hl; exact ⟨hs, hf⟩) []
  have e : bodyOf [⟨s, f, false⟩] ++ [] = s ++ comma :: f ++ ['\n'] := by
    simp [bodyOf, Line.text, eol]
  rw [e] at hk
  rw [SearchPrefix_run, hget, hk, searchLoop_eof]
  rfl

/-- C10, amended, at the prefix 5BAA6 and the body
"1E4C9B93F3F0682250B6CF8331B7EE68FD8:3\n". -/
theorem C10_single_line_witness :
    (∀ c ∈ "1E4C9B93F3F0682250B6CF8331B7EE68FD8".toList, isHexChar c = true) ∧
    ValidCount "3".toList ∧
    (SearchPrefix "5BAA6".toList).run
        (fun _ => .ok ⟨200, "1E4C9B93F3F0682250B6CF8331B7EE68FD8:3\n".toList⟩)
      = .ret ([⟨true, 3, "5BAA6".toList ++ "1E4C9B93F3F0682250B6CF8331B7EE68FD8".toList⟩], none) :=
  ⟨by decide, by decide,
    C10_single_line (fun _ => .ok ⟨200, "1E4C9B93F3F0682250B6CF8331B7EE68FD8:3\n".toList⟩)
      "5BAA6".toList 200 "1E4C9B93F3F0682250B6CF8331B7EE68FD8".toList "3".toList
      (by decide) (by decide) rfl⟩

/-- C11, as the code has it: for the password "password" the suffix of the line, in
lower case, equals the last 35 characters of the digest up to letter case, yet `IsPwned`
finds no match and returns `Pwned = false` with frequency 0. -/
theorem C11_lowercase_suffix_not_matched :
    toUpper "1e4c9b93f3f0682250b6cf8331b7ee68fd8".toList
      = (sha1Hash "password".toList).1.drop comparisonLength ∧
    (IsPwned "password".toList).run
        (fun _ => .ok ⟨200, "1e4c9b93f3f0682250b6cf8331b7ee68fd8:3730471\n".toList⟩)
      = .ret (some ⟨false, 0, "5BAA61E4C9B93F3F0682250B6CF8331B7EE68FD8".toList⟩, none) := by
  decide

/-- C11, amended.  The match is exact.  For a non-empty password with digest `d`:
whenever `SearchPrefix`, called on the first five characters of `d`, returns records
among which `r` is the first whose hash is `d`, its suffix being the last 35 characters
of `d` letter for letter, `IsPwned` returns `Pwned = true` with the frequency of `r`, and
the hash of the result is `d`, forty upper-case hexadecimal digits. -/
theorem C11_exact_suffix_match (net : List Char → HttpResult) (password : List Char)
    (records pre post : List Result) (r : Result) (err : Option Error) (sfx : List Char)
    (hp : password ≠ [])
    (hs : (SearchPrefix ((sha1Hash password).1.take comparisonLength)).run net
      = .ret (records, err))
    (hrec : records = pre ++ r :: post)
    (hr : r.Sha1Hash = (sha1Hash password).1.take comparisonLength ++ sfx)
    (hsfx : sfx = (sha1Hash password).1.drop comparisonLength)
    (hpre : ∀ x ∈ pre, x.Sha1Hash ≠ (sha1Hash password).1) :
    (IsPwned password).run net
        = .ret (some ⟨true, r.Frequency, (sha1Hash password).1⟩, none) ∧
      sfx.length = 35 ∧
      (sha1Hash password).1.length = 40 ∧
      ∀ c ∈ (sha1Hash password).1, isUpperHexChar c = true := by
  have hd : r.Sha1Hash = (sha1Hash password).1 := by
    rw [hr, hsfx, List.take_append_drop]
  have hpw : r.Pwned = true := by
    rw [SearchPrefix_run] at hs
    exact searchResponse_pwned _ _ _ _ hs r (by simp [hrec])
  have hl := sha1Hash_length password
  refine ⟨?_, ?_, hl, sha1Hash_upperHex password⟩
  · rw [IsPwned_run net password hp, hs]
    simp only [checkResults, hrec, firstMatch_first _ pre post r hd hpre]
    cases r with
    | mk p f h =>
      simp only at hpw hd
      rw [hpw, hd]
  · rw [hsfx, List.length_drop, hl]; rfl

/-- C11, amended, at the password "password" and the suffix in upper case. -/
theorem C11_exact_suffix_match_witness :
    "password".toList ≠ [] ∧
    (SearchPrefix ((sha1Hash "password".toList).1.take comparisonLength)).run
        (fun _ => .ok ⟨200, "1E4C9B93F3F0682250B6CF8331B7EE68FD8:3730471\n".toList⟩)
      = .ret ([⟨true, 3730471, "5BAA61E4C9B93F3F0682250B6CF8331B7EE68FD8".toList⟩], none) ∧
    "1E4C9B93F3F0682250B6CF8331B7EE68FD8".toList
      = (sha1Hash "password".toList).1.drop comparisonLength ∧
    (IsPwned "password".toList).run
        (fun _ => .ok ⟨200, "1E4C9B93F3F0682250B6CF8331B7EE68FD8:3730471\n".toList⟩)
      = .ret (some ⟨true, 3730471, "5BAA61E4C9B93F3F0682250B6CF8331B7EE68FD8".toList⟩, none) := by
  have hd : (sha1Hash "password".toList).1 = "5BAA61E4C9B93F3F0682250B6CF8331B7EE68FD8".toList := by
    rw [sha1Hash_password]
  have hs : (SearchPrefix ((sha1Hash "password".toList).1.take comparisonLength)).run
        (fun _ => .ok ⟨200, "1E4C9B93F3F0682250B6CF8331B7EE68FD8:3730471\n".toList⟩)
      = .ret ([⟨true, 3730471, "5BAA61E4C9B93F3F0682250B6CF8331B7EE68FD8".toList⟩], none) := by
    rw [hd]; decide
  have hx : "1E4C9B93F3F0682250B6CF8331B7EE68FD8".toList
      = (sha1Hash "password".toList).1.drop comparisonLength := by
    rw [hd]; decide
  have h := (C11_exact_suffix_match
    (fun _ => .ok ⟨200, "1E4C9B93F3F0682250B6CF8331B7EE68FD8:3730471\n".toList⟩)
    "password".toList [⟨true, 3730471, "5BAA61E4C9B93F3F0682250B6CF8331B7EE68FD8".toList⟩] [] []
    ⟨true, 3730471, "5BAA61E4C9B93F3F0682250B6CF8331B7EE68FD8".toList⟩ none
    "1E4C9B93F3F0682250B6CF8331B7EE68FD8".toList
    (by decide) hs rfl (by rw [hd]; decide) hx (by simp)).1
  rw [hd] at h
  exact ⟨by decide, hs, hx, h⟩

/-- C12.  For every non-empty password, `sha1Hash` returns no error and a string of
exactly 40 characters, each in `0`-`9` or `A`-`F`: the upper-case hexadecimal rendering
of the 20-byte SHA-1 digest of the password; and equal passwords give equal results. -/
theorem C12_digest_shape (password : List Char) (hp : password ≠ []) :
    (sha1Hash password).2 = none ∧
    (sha1Hash password).1.length = 40 ∧
    (∀ c ∈ (sha1Hash password).1, isUpperHexChar c = true) ∧
    (sha1Hash password).1 = toUpper (hexString (sha1Sum (stringBytes password))) ∧
    (sha1Sum (stringBytes password)).length = 20 ∧
    ∀ q, q = password → sha1Hash q = sha1Hash password := by
  have _ := hp
  exact ⟨rfl, sha1Hash_length password, sha1Hash_upperHex password, rfl, sha1Sum_length _,
    fun q hq => by rw [hq]⟩

/-- C12 at the password "password", whose digest is
5BAA61E4C9B93F3F0682250B6CF8331B7EE68FD8. -/
theorem C12_digest_shape_witness :
    "password".toList ≠ [] ∧
    sha1Hash "password".toList = ("5BAA61E4C9B93F3F0682250B6CF8331B7EE68FD8".toList, none) ∧
    (sha1Hash "password".toList).1.length = 40 ∧
    (∀ c ∈ (sha1Hash "password".toList).1, isUpperHexChar c = true) :=
  ⟨by decide, sha1Hash_password,
    (C12_digest_shape "password".toList (by decide)).2.1,
    (C12_digest_shape "password".toList (by decide)).2.2.1⟩

/-- C13, as the code has it: `sha1Hash` on the empty password returns no error and a
digest, the SHA-1 digest of the empty string. -/
theorem C13_empty_password_hashed :
    sha1Hash [] = ("DA39A3EE5E6B4B0D3255BFEF95601890AFD80709".toList, none) := by
  decide

/-- C13, amended.  `sha1Hash` never fails, on the empty password either: it returns no
error and a digest of 40 characters.  The error for the empty password comes from
`IsPwned`, which returns it at once. -/
theorem C13_empty_rejected_by_IsPwned :
    (∀ password, (sha1Hash password).2 = none ∧ (sha1Hash password).1.length = 40) ∧
    (sha1Hash []).1 ≠ [] ∧
    IsPwned [] = .done (.ret (none, some .noPassword)) :=
  ⟨fun password => ⟨rfl, sha1Hash_length password⟩,
    fun h => by have := sha1Hash_length []; rw [h] at this; simp at this, rfl⟩

/-- C14.  For a non-empty password with digest `d`, whatever the network answers, the
requests of `IsPwned` are exactly one: `GET <urlBase>/range/<first five characters of
d>`.  Hence two non-empty passwords whose digests share their first five characters
cause the same requests. -/
theorem C14_request_depends_on_prefix (net1 net2 : List Char → HttpResult)
    (p q : List Char) (hp : p ≠ []) (hq : q ≠ [])
    (h : (sha1Hash p).1.take comparisonLength = (sha1Hash q).1.take comparisonLength) :
    Prog.requests net1 (IsPwned p)
        = [urlBase ++ "/range/".toList ++ (sha1Hash p).1.take comparisonLength] ∧
      ((sha1Hash p).1.take comparisonLength).length = 5 ∧
      Prog.requests net1 (IsPwned p) = Prog.requests net2 (IsPwned q) := by
  refine ⟨IsPwned_requests net1 p hp, ?_, ?_⟩
  · rw [List.length_take, sha1Hash_length]; rfl
  · rw [IsPwned_requests net1 p hp, IsPwned_requests net2 q hq, h]

/-- C14 at the passwords "password136" and "password1818", whose digests both start
with BD30B, on two different networks. -/
theorem C14_request_depends_on_prefix_witness :
    "password136".toList ≠ [] ∧ "password1818".toList ≠ [] ∧
    (sha1Hash "password136".toList).1.take comparisonLength
      = (sha1Hash "password1818".toList).1.take comparisonLength ∧
    (sha1Hash "password136".toList).1 ≠ (sha1Hash "password1818".toList).1 ∧
    Prog.requests (fun _ => .ok ⟨200, []⟩) (IsPwned "password136".toList)
      = ["https://api.pwnedpasswords.com/range/BD30B".toList] ∧
    Prog.requests (fun _ => .ok ⟨200, []⟩) (IsPwned "password136".toList)
      = Prog.requests (fun _ => .error ⟨[]⟩) (IsPwned "password1818".toList) := by
  have h1 : (sha1Hash "password136".toList).1
      = "BD30B559BD9A84C988F99A2B3B05F4980E6D06CD".toList := by decide
  have h2 : (sha1Hash "password1818".toList).1
      = "BD30B4E206823991DE29A0C764E7F6CA6D98A890".toList := by decide
  have hpre : (sha1Hash "password136".toList).1.take comparisonLength
      = (sha1Hash "password1818".toList).1.take comparisonLength := by
    rw [h1, h2]; decide
  have h := C14_request_depends_on_prefix (fun _ => .ok ⟨200, []⟩) (fun _ => .error ⟨[]⟩)
    "password136".toList "password1818".toList (by decide) (by decide) hpre
  refine ⟨by decide, by decide, hpre, by rw [h1, h2]; decide, ?_, h.2.2⟩
  rw [h.1, h1]; decide

/-- C15.  For every password the digest has at least five characters, so its first five
characters exist, and whatever the network answers `IsPwned` never returns the error
"hash has insufficient length to perform check". -/
theorem C15_length_check_never_fails (net : List Char → HttpResult) (password : List Char) :
    comparisonLength ≤ (sha1Hash password).1.length ∧
    ((sha1Hash password).1.take comparisonLength).length = comparisonLength ∧
    ∀ res, (IsPwned password).run net ≠ .ret (res, some .insufficientLength) := by
  have hl := sha1Hash_length password
  refine ⟨by rw [hl]; decide, by rw [List.length_take, hl]; rfl, ?_⟩
  intro res h
  by_cases hp : password = []
  · subst hp
    simp [IsPwned, Prog.run] at h
  · rw [IsPwned_run net password hp, SearchPrefix_run] at h
    rcases hsr : searchResponse ((sha1Hash password).1.take comparisonLength)
        (net (rangeURL ((sha1Hash password).1.take comparisonLength))) with ⟨out, err⟩ | _ | _
    · rw [hsr] at h
      simp only [checkResults] at h
      split at h
      · cases h
      · split at h
        · cases h
          rcases searchResponse_error_kind _ _ _ _ hsr with ⟨t, ht⟩ | ⟨c, hc⟩ | ⟨n, hn⟩
          · cases ht
          · cases hc
          · cases hn
        · cases h
    · rw [hsr] at h; simp [checkResults] at h
    · rw [hsr] at h; simp [checkResults] at h

/-- C16, as the code has it: when the first line of the body has no `:`, the record has
one field and indexing `components[1]` panics; `SearchPrefix` does not return, and
neither does `IsPwned`. -/
theorem C16_one_field_line_panics :
    (SearchPrefix "5BAA6".toList).run
        (fun _ => .ok ⟨200, "1E4C9B93F3F0682250B6CF8331B7EE68FD8\n".toList⟩) = .panic ∧
    (IsPwned "password".toList).run
        (fun _ => .ok ⟨200, "1E4C9B93F3F0682250B6CF8331B7EE68FD8\n".toList⟩) = .panic := by
  decide

/-- C17.  For every prefix `p` and every response body whose first `k` lines are
well-formed and whose next line is rejected by the reader, for a wrong number of fields
or for a bare quote, `SearchPrefix` returns an error (the reader's, wrapped) together
with exactly the `k` records of the lines before, in order, the `i`-th with hash
`p ++ s_i` and frequency `f_i`. -/
theorem C17_records_kept_on_reader_error (net : List Char → HttpResult) (pfx : List Char)
    (status : Nat) (ls : List Line) (bad rest : List Char)
    (hw : ∀ l ∈ ls, l.WellFormed)
    (hbad : RejectedLine ls bad)
    (hget : net (rangeURL pfx) = .ok ⟨status, bodyOf ls ++ (bad ++ rest)⟩) :
    ∃ e, (SearchPrefix pfx).run net
      = .ret (ls.map (fun l => ⟨true, decimalValue l.count, pfx ++ l.suffix⟩),
          some (.invalidData e)) := by
  obtain ⟨k, hk⟩ := searchResponse_lines pfx status ls hw (bad ++ rest)
  rw [SearchPrefix_run, hget, hk]
  rcases hbad with ⟨hls, fs, crlf, hp, hne, hlen, rfl⟩ | ⟨fs, v, crlf, hp, hne, hlast, hv, rfl⟩
  · rw [if_neg hls, searchLoop_fieldCount pfx fs hp hne hlen crlf k rest]
    exact ⟨_, rfl⟩
  · rw [searchLoop_bareQuote pfx fs hne hp hlast v hv crlf k rest]
    exact ⟨_, rfl⟩

/-- C17 at a body with one well-formed line followed by a line with a bare quote. -/
theorem C17_records_kept_on_reader_error_witness :
    (∀ l ∈ ([⟨"0018A45C4D1DEF81644B54AB7F969B88D65".toList, "12".toList, false⟩] : List Line),
      l.WellFormed) ∧
    RejectedLine [⟨"0018A45C4D1DEF81644B54AB7F969B88D65".toList, "12".toList, false⟩]
      ("011053FD0102E94D6AE2F8B83D76FAF94F6".toList ++ dquote :: ":3".toList ++ ['\n']) ∧
    ∃ e, (SearchPrefix "5BAA6".toList).run
        (fun _ => .ok ⟨200, "0018A45C4D1DEF81644B54AB7F969B88D65:12\n".toList ++
          ("011053FD0102E94D6AE2F8B83D76FAF94F6".toList ++ dquote :: ":3".toList ++ ['\n'])⟩)
      = .ret ([⟨true, 12, "5BAA60018A45C4D1DEF81644B54AB7F969B88D65".toList⟩],
          some (.invalidData e)) := by
  have hw : ∀ l ∈ ([⟨"0018A45C4D1DEF81644B54AB7F969B88D65".toList, "12".toList, false⟩] : List Line),
      l.WellFormed := by decide
  have hbad : RejectedLine [⟨"0018A45C4D1DEF81644B54AB7F969B88D65".toList, "12".toList, false⟩]
      ("011053FD0102E94D6AE2F8B83D76FAF94F6".toList ++ dquote :: ":3".toList ++ ['\n']) :=
    Or.inr ⟨["011053FD0102E94D6AE2F8B83D76FAF94F6".toList], ":3".toList, false,
      by unfold PlainFields; decide, by decide, by decide, by decide, rfl⟩
  obtain ⟨e, he⟩ := C17_records_kept_on_reader_error
    (fun _ => .ok ⟨200, "0018A45C4D1DEF81644B54AB7F969B88D65:12\n".toList ++
      ("011053FD0102E94D6AE2F8B83D76FAF94F6".toList ++ dquote :: ":3".toList ++ ['\n'])⟩)
    "5BAA6".toList 200 [⟨"0018A45C4D1DEF81644B54AB7F969B88D65".toList, "12".toList, false⟩]
    ("011053FD0102E94D6AE2F8B83D76FAF94F6".toList ++ dquote :: ":3".toList ++ ['\n']) []
    hw hbad rfl
  exact ⟨hw, hbad, e, he⟩

end Pwned
